import Mathlib

/-!
Verification development for the data-model-masking extension.

Shallow embedding of the schema masking core:
* `Webview.resolveRefUri` and `Webview.setDeepValue` from
  webview-ui/src/utils/schemaUtils.ts (the second, authoritative copies at
  lines 155-210 and 213-235).
* `Processor.processSchema` from src/processor.ts (the second, authoritative
  definition at lines 429-695, the multi-file output strategy).
* `SingleFile.processSchema` from the single-file strategy processor
  (src/unnamed/part_006, lines 54-376) together with
  `SingleFile.generateDefinitionKey` (lines 31-37).
* The node path helpers (dirname, extname, basename, resolve, relative, join)
  are modelled for posix separators, which is what the sources use for
  schema document paths.

JSON values are association lists in declaration order, mirroring how the
JavaScript sources iterate object keys with for-in.  Mutable caches and
accumulators become explicitly threaded state; the filesystem becomes a
function from absolute path to optionally parsed content; recursion through
the filesystem is bounded by explicit fuel, with a distinguished
`PResult.fuelOut` outcome that is propagated and never silently absorbed.
A thrown exception that escapes processSchema is the distinguished
`PResult.err`.
-/

namespace DMask

/-- JSON value, as parsed from a schema document.  Objects keep their keys in
declaration order, matching JavaScript for-in enumeration order. -/
inductive JVal where
  | vBool : Bool → JVal
  | vNum : Int → JVal
  | vStr : String → JVal
  | vNull : JVal
  | vArr : List JVal → JVal
  | vObj : List (String × JVal) → JVal

/-- A processed output schema node: a JavaScript object under construction. -/
abbrev OutSchema := List (String × JVal)

-- Association list operations mirroring JavaScript object semantics
-- (unique keys; assignment replaces in place, delete removes the key).

def alookup {α : Type} : List (String × α) → String → Option α
  | [], _ => none
  | (k0, v0) :: rest, k => if k0 = k then some v0 else alookup rest k

def aset {α : Type} : List (String × α) → String → α → List (String × α)
  | [], k, v => [(k, v)]
  | (k0, v0) :: rest, k, v =>
    if k0 = k then (k0, v) :: rest else (k0, v0) :: aset rest k v

def aerase {α : Type} : List (String × α) → String → List (String × α)
  | [], _ => []
  | (k0, v0) :: rest, k => if k0 = k then rest else (k0, v0) :: aerase rest k

/-- JavaScript truthiness of a JSON value. -/
def jTruthy : JVal → Bool
  | .vBool b => b
  | .vNum n => n != 0
  | .vStr s => s != ""
  | .vNull => false
  | .vArr _ => true
  | .vObj _ => true

def jTruthyOpt : Option JVal → Bool
  | none => false
  | some v => jTruthy v

/-- Fields of a JSON value when it is an object; member access on any other
value yields undefined and for-in enumerates nothing. -/
def objFields : JVal → List (String × JVal)
  | .vObj l => l
  | _ => []

def getField (s : JVal) (k : String) : Option JVal :=
  alookup (objFields s) k

-- Character-level string helpers (structural, so that the kernel can
-- evaluate every definition on concrete inputs).

def chSplit : List Char → List (List Char)
  | [] => [[]]
  | c :: cs =>
    match chSplit cs with
    | [] => [[]]
    | seg :: rest => if c = '/' then [] :: seg :: rest else (c :: seg) :: rest

def splitSlash (s : String) : List String :=
  (chSplit s.data).map String.mk

def joinSlash : List String → String
  | [] => ""
  | [x] => x
  | x :: y :: rest => x ++ "/" ++ joinSlash (y :: rest)

def startsWithDot (s : String) : Bool :=
  match s.data with
  | '.' :: _ => true
  | _ => false

def startsWithDotOrSlash (s : String) : Bool :=
  match s.data with
  | '.' :: _ => true
  | '/' :: _ => true
  | _ => false

def pathIsAbsolute (p : String) : Bool :=
  match p.data with
  | '/' :: _ => true
  | _ => false

def dropTrailingSlash (cs : List Char) : List Char :=
  (cs.reverse.dropWhile (fun c => c = '/')).reverse

-- Model of path.posix.dirname for the normalized inputs used by the sources.
def pathDirname (p : String) : String :=
  let cs := dropTrailingSlash p.data
  if cs.isEmpty then (if pathIsAbsolute p then "/" else ".")
  else
    let revCs := cs.reverse
    let afterRev := revCs.takeWhile (fun c => c ≠ '/')
    if afterRev.length = revCs.length then "."
    else
      let before := ((revCs.drop (afterRev.length + 1)).dropWhile (fun c => c = '/')).reverse
      if before.isEmpty then "/" else String.mk before

-- Model of path.posix.extname: the suffix of the base name from its last
-- dot, empty when there is no dot or the dot is the first character.
def pathExtname (p : String) : String :=
  let base := (p.data.reverse.takeWhile (fun c => c ≠ '/')).reverse
  let revBase := base.reverse
  let afterDotRev := revBase.takeWhile (fun c => c ≠ '.')
  if afterDotRev.length = revBase.length then ""
  else if afterDotRev.length + 1 = revBase.length then ""
  else String.mk ('.' :: afterDotRev.reverse)

def strEndsWithList (cs suffix : List Char) : Bool :=
  cs.reverse.take suffix.length == suffix.reverse

-- Model of path.posix.basename with an extension argument: the part after
-- the last slash, with the extension stripped when it is a proper suffix.
def pathBasenameExt (p ext : String) : String :=
  let base := ((dropTrailingSlash p.data).reverse.takeWhile (fun c => c ≠ '/')).reverse
  if ext != "" && strEndsWithList base ext.data && base.length != ext.data.length
  then String.mk (base.take (base.length - ext.data.length))
  else String.mk base

-- Segment normalization for absolute paths: empty and dot segments vanish,
-- dot-dot pops, popping at the root is absorbed (path.posix.resolve).
def normAbsSegs : List String → List String → List String
  | acc, [] => acc.reverse
  | acc, seg :: rest =>
    if seg == "" || seg == "." then normAbsSegs acc rest
    else if seg == ".." then normAbsSegs (acc.drop 1) rest
    else normAbsSegs (seg :: acc) rest

-- Segment normalization for relative paths: leading dot-dot segments are
-- preserved (path.posix.join and normalize).
def normRelSegs : List String → List String → List String
  | acc, [] => acc.reverse
  | acc, seg :: rest =>
    if seg == "" || seg == "." then normRelSegs acc rest
    else if seg == ".." then
      match acc with
      | [] => normRelSegs [".."] rest
      | t :: acc2 =>
        if t == ".." then normRelSegs (".." :: t :: acc2) rest
        else normRelSegs acc2 rest
    else normRelSegs (seg :: acc) rest

-- Model of path.posix.resolve for an absolute base directory.
def pathResolve (dir ref : String) : String :=
  let combined := if pathIsAbsolute ref then ref else dir ++ "/" ++ ref
  "/" ++ joinSlash (normAbsSegs [] (splitSlash combined))

/-- src/utils.ts resolveRefPath (lines 59-67): resolve a relative reference
against the directory of the containing schema file.  The source first
throws when the containing path is not absolute; callers of this model check
`pathIsAbsolute` and produce the error outcome in that case. -/
def resolveRefPath (ref currentSchemaPath : String) : String :=
  pathResolve (pathDirname currentSchemaPath) ref

def dropCommonSegs : List String → List String → List String × List String
  | [], ts => ([], ts)
  | f :: fs, [] => (f :: fs, [])
  | f :: fs, t :: ts =>
    if f == t then dropCommonSegs fs ts else (f :: fs, t :: ts)

-- Model of path.posix.relative for absolute arguments.
def pathRelative (fromP toP : String) : String :=
  let pair := dropCommonSegs (normAbsSegs [] (splitSlash fromP)) (normAbsSegs [] (splitSlash toP))
  joinSlash (List.replicate pair.1.length ".." ++ pair.2)

-- Model of path.posix.join on two components.
def pathJoin (a b : String) : String :=
  let segs := splitSlash a ++ splitSlash b
  if pathIsAbsolute a then "/" ++ joinSlash (normAbsSegs [] segs)
  else
    let ns := normRelSegs [] segs
    if ns.isEmpty then "." else joinSlash ns

/-- src/utils.ts getOutputPath (lines 72-79). -/
def getOutputPath (originalAbsolutePath baseInputDir baseOutputDir : String) : String :=
  pathJoin baseOutputDir (pathRelative baseInputDir originalAbsolutePath)

/-- Selection value: boolean, or a selection detail object with optional
`properties`, `items` and `$refTargetSelection` members (src/types).  Absent
members are `none`; a JSON-parsed detail never holds undefined members. -/
inductive Sel where
  | sbool : Bool → Sel
  | sdet : Option (List (String × Sel)) → Option Sel → Option Sel → Sel

def Sel.propsF : Sel → Option (List (String × Sel))
  | .sdet pf _ _ => pf
  | .sbool _ => none

def Sel.itemsF : Sel → Option Sel
  | .sdet _ itf _ => itf
  | .sbool _ => none

def Sel.refTF : Sel → Option Sel
  | .sdet _ _ tf => tf
  | .sbool _ => none

def truthySel : Sel → Bool
  | .sbool b => b
  | .sdet _ _ _ => true

def truthySelOpt : Option Sel → Bool
  | none => false
  | some s => truthySel s

def selIsTrue : Sel → Bool
  | .sbool true => true
  | _ => false

end DMask

namespace Webview

open DMask

def strContainsSlash (s : String) : Bool :=
  s.data.contains '/'

def strBeforeLastSlash (s : String) : String :=
  String.mk (((s.data.reverse.dropWhile (fun c => c ≠ '/')).drop 1).reverse)

/-- The segment loop of resolveRefUri (schemaUtils.ts lines 182-201): empty
and dot parts are skipped; a dot-dot part pops the last resolved segment
unless the stack is empty or its top is itself dot-dot, in which case the
dot-dot is kept. -/
def resolveSegs : List String → List String → List String
  | acc, [] => acc.reverse
  | acc, part :: rest =>
    if part == "" || part == "." then resolveSegs acc rest
    else if part == ".." then
      match acc with
      | [] => resolveSegs [".."] rest
      | t :: acc2 =>
        if t != ".." then resolveSegs acc2 rest
        else resolveSegs (".." :: t :: acc2) rest
    else resolveSegs (part :: acc) rest

/-- webview-ui/src/utils/schemaUtils.ts resolveRefUri (the authoritative
second definition, lines 155-210). -/
def resolveRefUri (ref currentId : String) : String :=
  if ref = "" then ref
  else if !startsWithDot ref then ref
  else
    let currentDir := if strContainsSlash currentId then strBeforeLastSlash currentId else ""
    let combinedPath := if currentDir = "" then ref else currentDir ++ "/" ++ ref
    joinSlash (resolveSegs [] (splitSlash combinedPath))

-- Selection tree as manipulated by setDeepValue: a boolean leaf or an
-- object node whose fields keep insertion order.  `Option SelTree` stands
-- for a possibly-undefined selection value.
mutual
inductive SelTree where
  | leaf : Bool → SelTree
  | node : SelFields → SelTree
inductive SelFields where
  | fnil : SelFields
  | fcons : String → SelTree → SelFields → SelFields
end

def fieldsLookup : SelFields → String → Option SelTree
  | .fnil, _ => none
  | .fcons k0 v0 rest, k => if k0 = k then some v0 else fieldsLookup rest k

def fieldsSet : SelFields → String → SelTree → SelFields
  | .fnil, k, v => .fcons k v .fnil
  | .fcons k0 v0 rest, k, v =>
    if k0 = k then .fcons k0 v rest else .fcons k0 v0 (fieldsSet rest k v)

def fieldsErase : SelFields → String → SelFields
  | .fnil, _ => .fnil
  | .fcons k0 v0 rest, k =>
    if k0 = k then rest else .fcons k0 v0 (fieldsErase rest k)

def fieldsIsEmpty : SelFields → Bool
  | .fnil => true
  | .fcons _ _ _ => false

def hasKey : SelFields → String → Bool
  | .fnil, _ => false
  | .fcons k0 _ rest, k => k0 == k || hasKey rest k

def noDupKeys : SelFields → Bool
  | .fnil => true
  | .fcons k _ rest => !hasKey rest k && noDupKeys rest

-- Well-formedness of a selection tree as produced by JavaScript objects:
-- keys are unique at every node.  Object literals cannot carry duplicate
-- keys, so every tree the UI manipulates satisfies this.
mutual
def treeWF : SelTree → Bool
  | .leaf _ => true
  | .node fs => noDupKeys fs && fieldsWF fs
def fieldsWF : SelFields → Bool
  | .fnil => true
  | .fcons _ t rest => treeWF t && fieldsWF rest
end

def treeWFOpt : Option SelTree → Bool
  | none => true
  | some t => treeWF t

/-- webview-ui/src/utils/schemaUtils.ts setDeepValue (lines 213-235): pure
copy-on-write placement of `value` at `path`; an undefined result removes the
key, and a level left empty collapses to undefined. -/
def setDeepValue : Option SelTree → List String → Option SelTree → Option SelTree
  | _, [], value => value
  | obj, k :: rest, value =>
    let cl : SelFields :=
      match obj with
      | some (.node fs) => fs
      | _ => .fnil
    let newVal := setDeepValue (fieldsLookup cl k) rest value
    let nl :=
      match newVal with
      | none => fieldsErase cl k
      | some v => fieldsSet cl k v
    if fieldsIsEmpty nl then none else some (.node nl)

/-- Along the given path, every surviving node is a non-empty detail object
(or the chain has been cut: absent, or a boolean leaf). -/
def noEmptyAlong : Option SelTree → List String → Bool
  | _, [] => true
  | none, _ :: _ => true
  | some (.leaf _), _ :: _ => true
  | some (.node fs), k :: rest =>
    !fieldsIsEmpty fs && noEmptyAlong (fieldsLookup fs k) rest

end Webview


namespace Webview

open DMask

-- Auxiliary lemmas about field maps with unique keys (equation-style
-- recursion, since SelFields is part of a mutual inductive).

theorem hasKey_false_lookup :
    ∀ (fs : SelFields) (k : String), hasKey fs k = false → fieldsLookup fs k = none
  | .fnil, _, _ => rfl
  | .fcons k0 _ rest, k, h => by
    simp only [hasKey, Bool.or_eq_false_iff] at h
    simp only [fieldsLookup]
    rw [if_neg (by simpa using h.1)]
    exact hasKey_false_lookup rest k h.2

theorem lookup_erase_nodup :
    ∀ (fs : SelFields) (k : String), noDupKeys fs = true →
      fieldsLookup (fieldsErase fs k) k = none
  | .fnil, _, _ => rfl
  | .fcons k0 _ rest, k, h => by
    simp only [noDupKeys, Bool.and_eq_true, Bool.not_eq_true'] at h
    simp only [fieldsErase]
    by_cases hk : k0 = k
    · rw [if_pos hk]
      exact hasKey_false_lookup rest k (hk ▸ h.1)
    · rw [if_neg hk]
      simp only [fieldsLookup]
      rw [if_neg hk]
      exact lookup_erase_nodup rest k h.2

theorem lookup_set_self :
    ∀ (fs : SelFields) (k : String) (v : SelTree),
      fieldsLookup (fieldsSet fs k v) k = some v
  | .fnil, k, v => by simp [fieldsSet, fieldsLookup]
  | .fcons k0 v0 rest, k, v => by
    simp only [fieldsSet]
    by_cases hk : k0 = k
    · rw [if_pos hk]
      simp [fieldsLookup, hk]
    · rw [if_neg hk]
      simp only [fieldsLookup]
      rw [if_neg hk]
      exact lookup_set_self rest k v

theorem fieldsWF_lookup :
    ∀ (fs : SelFields) (k : String) (t : SelTree),
      fieldsWF fs = true → fieldsLookup fs k = some t → treeWF t = true
  | .fnil, k, t, _, hl => by simp [fieldsLookup] at hl
  | .fcons k0 v0 rest, k, t, hwf, hl => by
    rw [fieldsWF, Bool.and_eq_true] at hwf
    simp only [fieldsLookup] at hl
    by_cases hk : k0 = k
    · rw [if_pos hk] at hl
      cases hl
      exact hwf.1
    · rw [if_neg hk] at hl
      exact fieldsWF_lookup rest k t hwf.2 hl

end Webview

namespace Webview

open DMask

theorem noEmptyAlong_none : ∀ (l : List String), noEmptyAlong none l = true
  | [] => rfl
  | _ :: _ => rfl

theorem childWFOpt (fs : SelFields) (k : String) (h : fieldsWF fs = true) :
    treeWFOpt (fieldsLookup fs k) = true := by
  cases hl : fieldsLookup fs k with
  | none => rfl
  | some t => exact fieldsWF_lookup fs k t h hl

-- One level of setDeepValue with the shallow-copied fields cl: removing or
-- replacing the entry at k never leaves an empty node along the path.
theorem sdv_level (cl : SelFields) (k : String) (rest : List String)
    (hnodup : noDupKeys cl = true)
    (ih : noEmptyAlong (setDeepValue (fieldsLookup cl k) rest none) rest = true) :
    noEmptyAlong
      (let newVal := setDeepValue (fieldsLookup cl k) rest none
       let nl := match newVal with
         | none => fieldsErase cl k
         | some v => fieldsSet cl k v
       if fieldsIsEmpty nl then none else some (SelTree.node nl))
      (k :: rest) = true := by
  cases hnv : setDeepValue (fieldsLookup cl k) rest none with
  | none =>
    simp only [hnv]
    split
    · exact noEmptyAlong_none _
    · rename_i hne
      simp only [Bool.not_eq_true] at hne
      simp only [noEmptyAlong, hne, Bool.not_false, Bool.true_and]
      rw [lookup_erase_nodup cl k hnodup]
      exact noEmptyAlong_none rest
  | some v =>
    simp only [hnv]
    split
    · exact noEmptyAlong_none _
    · rename_i hne
      simp only [Bool.not_eq_true] at hne
      simp only [noEmptyAlong, hne, Bool.not_false, Bool.true_and]
      rw [lookup_set_self cl k v]
      rw [hnv] at ih
      exact ih

theorem setDeepValue_collapse :
    ∀ (path : List String) (obj : Option SelTree), treeWFOpt obj = true →
      noEmptyAlong (setDeepValue obj path none) path = true
  | [], _, _ => rfl
  | k :: rest, none, _ =>
    sdv_level .fnil k rest rfl (setDeepValue_collapse rest (fieldsLookup .fnil k) rfl)
  | k :: rest, some (.leaf _), _ =>
    sdv_level .fnil k rest rfl (setDeepValue_collapse rest (fieldsLookup .fnil k) rfl)
  | k :: rest, some (.node fs), h => by
    simp only [treeWFOpt, treeWF, Bool.and_eq_true] at h
    exact sdv_level fs k rest h.1
      (setDeepValue_collapse rest (fieldsLookup fs k) (childWFOpt fs k h.2))

end Webview

/-- C4: the reference resolver maps "../x.json" with containing document
identifier "a/b.json" to "x.json", and maps "../x.json" with containing
document identifier "b.json" (no directory part) to "../x.json", preserving
the leading dot-dot escape above the base rather than dropping it. -/
theorem c4_parent_escape_resolution :
    Webview.resolveRefUri "../x.json" "a/b.json" = "x.json" ∧
    Webview.resolveRefUri "../x.json" "b.json" = "../x.json" :=
  ⟨by decide, by decide⟩

/-- C5: for every well-formed selection tree (unique keys at every node, as
for any JavaScript object) and every key path, setDeepValue with value
undefined returns a tree in which no node along the path is an empty detail
object: each surviving ancestor of the removed entry is a non-empty node,
and an ancestor left empty collapses to undefined, propagating upward. -/
theorem c5_setDeepValue_never_leaves_empty_ancestor
    (path : List String) (obj : Option Webview.SelTree)
    (h : Webview.treeWFOpt obj = true) :
    Webview.noEmptyAlong (Webview.setDeepValue obj path none) path = true :=
  Webview.setDeepValue_collapse path obj h

/-- C5 witness: removing the only leaf two levels down collapses the whole
tree to undefined, and no empty node survives along the path. -/
theorem c5_witness :
    Webview.treeWFOpt (some (Webview.SelTree.node
      (Webview.SelFields.fcons "properties"
        (Webview.SelTree.node (Webview.SelFields.fcons "a"
          (Webview.SelTree.leaf true) Webview.SelFields.fnil))
        Webview.SelFields.fnil))) = true ∧
    Webview.setDeepValue (some (Webview.SelTree.node
      (Webview.SelFields.fcons "properties"
        (Webview.SelTree.node (Webview.SelFields.fcons "a"
          (Webview.SelTree.leaf true) Webview.SelFields.fnil))
        Webview.SelFields.fnil))) ["properties", "a"] none = none ∧
    Webview.noEmptyAlong (Webview.setDeepValue (some (Webview.SelTree.node
      (Webview.SelFields.fcons "properties"
        (Webview.SelTree.node (Webview.SelFields.fcons "a"
          (Webview.SelTree.leaf true) Webview.SelFields.fnil))
        Webview.SelFields.fnil))) ["properties", "a"] none)
      ["properties", "a"] = true :=
  ⟨by decide, rfl,
    c5_setDeepValue_never_leaves_empty_ancestor ["properties", "a"] _ (by decide)⟩

/-- C8: for every reference string that does not start with a dot, the
reference resolver returns the string unchanged, regardless of the
containing document identifier. -/
theorem c8_direct_key_returned_unchanged (ref currentId : String)
    (h : DMask.startsWithDot ref = false) :
    Webview.resolveRefUri ref currentId = ref := by
  unfold Webview.resolveRefUri
  by_cases he : ref = ""
  · simp [he]
  · simp [he, h]

/-- C8 witness at a concrete non-relative reference. -/
theorem c8_witness :
    DMask.startsWithDot "definitions/address" = false ∧
    Webview.resolveRefUri "definitions/address" "schemas/main.json" = "definitions/address" :=
  ⟨by decide, c8_direct_key_returned_unchanged "definitions/address" "schemas/main.json" (by decide)⟩

namespace Processor

open DMask

/-- Cache entry states: the in-progress sentinel PROCESSING_MARKER, or a
finished result (a schema object or null). -/
inductive CacheVal where
  | marker : CacheVal
  | done : Option OutSchema → CacheVal

/-- Processing cache: absolute original path to entry (src/processor.ts
lines 412-416), in insertion order. -/
abbrev Cache := List (String × CacheVal)

/-- Result of a processSchema call: a schema object or null, the cycle
marker, a thrown exception escaping the call, or fuel exhaustion (a model
artifact, always propagated). -/
inductive PResult where
  | res : Option OutSchema → PResult
  | marker : PResult
  | err : PResult
  | fuelOut : PResult

-- Basic keyword copy (lines 472-482): every key except the structural ones,
-- and empty non-array objects are not copied.

def basicExcluded (k : String) : Bool :=
  k == "properties" || k == "items" || k == "$ref" || k == "required" ||
  k == "definitions" || k == "allOf" || k == "anyOf" || k == "oneOf" || k == "not"

def keepBasicVal : JVal → Bool
  | .vObj l => !l.isEmpty
  | _ => true

def copyBasics (s : JVal) : OutSchema :=
  (objFields s).filter (fun kv => !basicExcluded kv.1 && keepBasicVal kv.2)

/-- Selection for the target of a $ref (line 495): the $refTargetSelection
member when the selection is not the literal true and that member is truthy,
otherwise the literal true. -/
def refSelectionOf (sel : Sel) : Sel :=
  if !selIsTrue sel && truthySelOpt sel.refTF then (sel.refTF).getD (Sel.sbool true)
  else Sel.sbool true

/-- Selection for a named property (line 593): true when the parent
selection is the literal true, else the entry of the properties member. -/
def propSelOf (sel : Sel) (k : String) : Option Sel :=
  if selIsTrue sel then some (Sel.sbool true)
  else (sel.propsF).bind (fun l => alookup l k)

/-- Selection for items (line 646). -/
def itemsSelOf (sel : Sel) : Option Sel :=
  if selIsTrue sel then some (Sel.sbool true) else sel.itemsF

/-- Guard of the properties block (line 582): selection is the literal true
or a detail carrying a properties member. -/
def propsGuard (sel : Sel) : Bool :=
  selIsTrue sel || (sel.propsF).isSome

/-- Guard of the items block (line 642). -/
def itemsGuard (sel : Sel) : Bool :=
  selIsTrue sel || truthySelOpt sel.itemsF

def reqIncludes (req : Option JVal) (k : String) : Bool :=
  match req with
  | some (.vArr l) => l.any (fun v => match v with | .vStr s => s == k | _ => false)
  | _ => false

def typeFieldIs (s : JVal) (t : String) : Bool :=
  match getField s "type" with
  | some (.vStr u) => u == t
  | _ => false

def outTypeIs (out : OutSchema) (t : String) : Bool :=
  match alookup out "type" with
  | some (.vStr u) => u == t
  | _ => false

def outRefTruthy (out : OutSchema) : Bool :=
  jTruthyOpt (alookup out "$ref")

/-- Output updates of a non-empty properties result (lines 627-633): set
type object when the original declares it and the output lacks a truthy
type, then set properties, then set required when non-empty. -/
def propsOut (s : JVal) (out : OutSchema) (op : List (String × JVal))
    (rq : List String) : OutSchema :=
  let out1 := if !jTruthyOpt (alookup out "type") && typeFieldIs s "object"
              then aset out "type" (.vStr "object") else out
  let out2 := aset out1 "properties" (.vObj op)
  if !rq.isEmpty then aset out2 "required" (.vArr (rq.map JVal.vStr)) else out2

/-- Cleanup of a lone copied type object when no properties survived
(lines 634-637). -/
def propsCleanup (out : OutSchema) : OutSchema :=
  if outTypeIs out "object" && out.length == 1 then aerase out "type" else out

/-- Output updates of a successful items result (lines 660-663). -/
def itemsOut (s : JVal) (out : OutSchema) (o : OutSchema) : OutSchema :=
  let out1 := if !jTruthyOpt (alookup out "type") && typeFieldIs s "array"
              then aset out "type" (.vStr "array") else out
  aset out1 "items" (.vObj o)

/-- Cleanup of a lone copied type array when items produced null
(lines 667-669). -/
def itemsCleanup (out : OutSchema) : OutSchema :=
  if outTypeIs out "array" && out.length == 1 then aerase out "type" else out

/-- Rewriting of the emitted $ref (lines 540-557): relative path between the
two output files, with the hardcoded suffix _m1 inserted before the
extension of the file-name component, and a leading ./ added when the
result starts with neither a dot nor a slash. -/
def refRewrite (p refAbs bIn bOut : String) : String :=
  let curOut := getOutputPath p bIn bOut
  let refOut := getOutputPath refAbs bIn bOut
  let rel := pathRelative (pathDirname curOut) refOut
  let refDir := pathDirname rel
  let refExt := pathExtname rel
  let refBase := pathBasenameExt rel refExt
  let masked := refBase ++ "_m1" ++ refExt
  let rel2 := pathJoin refDir masked
  if startsWithDotOrSlash rel2 then rel2 else "./" ++ rel2

/-- The properties loop (lines 588-625), generic in the state σ threaded
through the per-property recursion `step`.  A property is processed when its
selection is truthy; a successful (non-null, non-marker) result is collected
and its key recorded for output required when the original required array
includes it; null and marker results are skipped; a thrown error or fuel
exhaustion aborts. -/
def processPropsFold {σ : Type} (step : JVal → Sel → σ → PResult × σ)
    (sel : Sel) (req : Option JVal) :
    List (String × JVal) → σ →
    Except (PResult × σ) (List (String × JVal) × List String × σ)
  | [], st => .ok ([], [], st)
  | (k, pv) :: rest, st =>
    match propSelOf sel k with
    | some psel =>
      if truthySel psel then
        match step pv psel st with
        | (.res (some o), st2) =>
          match processPropsFold step sel req rest st2 with
          | .error e => .error e
          | .ok (op, rq, st3) =>
            .ok ((k, .vObj o) :: op, (if reqIncludes req k then k :: rq else rq), st3)
        | (.res none, st2) => processPropsFold step sel req rest st2
        | (.marker, st2) => processPropsFold step sel req rest st2
        | (.err, st2) => .error (.err, st2)
        | (.fuelOut, st2) => .error (.fuelOut, st2)
      else processPropsFold step sel req rest st
    | none => processPropsFold step sel req rest st

/-- The $ref handling block (lines 491-577).  On a truthy $ref: a non-string
value or a non-absolute containing path makes resolveRefPath throw (err);
otherwise the target path is resolved and the target processed as a
top-level call through the shared cache (marker and done entries hit the
cache first; a missing file is caught and treated as null).  A marker or a
non-empty result emits a rewritten $ref, discarding the copied basics;
otherwise the basics are kept. -/
def refStage (fsys : String → Option JVal)
    (refRec : JVal → Sel → String → Cache → PResult × Cache)
    (s : JVal) (sel : Sel) (basics : OutSchema) (hc0 : Bool)
    (p bIn bOut : String) (cache : Cache) :
    Except (PResult × Cache) (OutSchema × Bool × Cache) :=
  match getField s "$ref" with
  | some rv =>
    if jTruthy rv then
      if !pathIsAbsolute p then .error (.err, cache)
      else
        match rv with
        | .vStr r =>
          let refAbs := resolveRefPath r p
          let refSel := refSelectionOf sel
          if truthySel refSel then
            let rc :=
              match alookup cache refAbs with
              | some .marker => (PResult.marker, cache)
              | some (.done v) => (PResult.res v, cache)
              | none =>
                match fsys refAbs with
                | none => (PResult.res none, cache)
                | some rs => refRec rs refSel refAbs cache
            match rc with
            | (.fuelOut, c2) => .error (.fuelOut, c2)
            | (.err, c2) => .ok (basics, hc0 || !basics.isEmpty, c2)
            | (.marker, c2) =>
              .ok ([("$ref", JVal.vStr (refRewrite p refAbs bIn bOut))], true, c2)
            | (.res (some o), c2) =>
              if !o.isEmpty then
                .ok ([("$ref", JVal.vStr (refRewrite p refAbs bIn bOut))], true, c2)
              else .ok (basics, hc0 || !basics.isEmpty, c2)
            | (.res none, c2) => .ok (basics, hc0 || !basics.isEmpty, c2)
          else .ok (basics, hc0 || !basics.isEmpty, cache)
        | _ => .error (.err, cache)
    else .ok (basics, hc0, cache)
  | none => .ok (basics, hc0, cache)

/-- The properties block (lines 580-638): skipped when the output already
carries a truthy $ref; otherwise, when the original declares properties and
the selection allows them, the properties loop runs and a non-empty result
sets type (when the original is an object), properties, and required, while
an empty result cleans up a lone copied type object. -/
def propsStage (step : JVal → Sel → Cache → PResult × Cache)
    (s : JVal) (sel : Sel) (out : OutSchema) (hc : Bool) (cache : Cache) :
    Except (PResult × Cache) (OutSchema × Bool × Cache) :=
  if outRefTruthy out then .ok (out, hc, cache)
  else
    match getField s "properties" with
    | some pv =>
      if jTruthy pv && propsGuard sel then
        match processPropsFold step sel (getField s "required") (objFields pv) cache with
        | .error e => .error e
        | .ok (op, rq, cache2) =>
          if !op.isEmpty then .ok (propsOut s out op rq, true, cache2)
          else .ok (propsCleanup out, hc, cache2)
      else .ok (out, hc, cache)
    | none => .ok (out, hc, cache)

/-- The items block (lines 640-674): skipped when the output already carries
a truthy $ref; only a single object-form items schema is processed. -/
def itemsStage (step : JVal → Sel → Cache → PResult × Cache)
    (s : JVal) (sel : Sel) (out : OutSchema) (hc : Bool) (cache : Cache) :
    Except (PResult × Cache) (OutSchema × Bool × Cache) :=
  if outRefTruthy out then .ok (out, hc, cache)
  else
    match getField s "items" with
    | some (.vObj il) =>
      if itemsGuard sel then
        match itemsSelOf sel with
        | some isel =>
          if truthySel isel then
            match step (.vObj il) isel cache with
            | (.res (some o), c2) => .ok (itemsOut s out o, true, c2)
            | (.res none, c2) => .ok (itemsCleanup out, hc, c2)
            | (.marker, c2) => .ok (out, hc, c2)
            | (.err, c2) => .error (.err, c2)
            | (.fuelOut, c2) => .error (.fuelOut, c2)
          else .ok (out, hc, cache)
        | none => .ok (out, hc, cache)
      else .ok (out, hc, cache)
    | _ => .ok (out, hc, cache)

/-- One call of processSchema (src/processor.ts lines 429-695), with the
recursion broken out into the function parameters `step` (inline recursion
on properties and items) and `refRec` (top-level recursion on a referenced
file).  Top-level calls check and maintain the cache: a marker hit returns
the marker, a done hit returns the memoized result, a falsy selection
removes the freshly placed marker and returns null, and a completed body
stores its final result. -/
def processBody (fsys : String → Option JVal)
    (step : JVal → Sel → Cache → PResult × Cache)
    (refRec : JVal → Sel → String → Cache → PResult × Cache)
    (s : JVal) (sel : Option Sel) (p bIn bOut : String)
    (cache : Cache) (top : Bool) : PResult × Cache :=
  match (if top then alookup cache p else none) with
  | some .marker => (.marker, cache)
  | some (.done v) => (.res v, cache)
  | none =>
    let cache1 := if top then aset cache p .marker else cache
    if !truthySelOpt sel then
      (.res none, if top then aerase cache1 p else cache1)
    else
      let sel1 := sel.getD (Sel.sbool false)
      let basics := copyBasics s
      let hc0 := selIsTrue sel1 && !basics.isEmpty
      match refStage fsys refRec s sel1 basics hc0 p bIn bOut cache1 with
      | .error e => e
      | .ok (out0, hc1, c2) =>
        match propsStage step s sel1 out0 hc1 c2 with
        | .error e => e
        | .ok (out1, hc2, c3) =>
          match itemsStage step s sel1 out1 hc2 c3 with
          | .error e => e
          | .ok (out2, hc3, c4) =>
            let fin := if hc3 then some out2 else none
            (.res fin, if top then aset c4 p (.done fin) else c4)

/-- processSchema of the multi-file strategy (src/processor.ts lines
429-695): fuel-bounded recursion through the filesystem `fsys`; inline
recursion on properties and items keeps the same originalSchemaPath, and
recursion into a referenced file is a top-level call on the resolved
absolute path. -/
def processSchema (fsys : String → Option JVal) (bIn bOut : String) :
    Nat → JVal → Option Sel → String → Cache → Bool → PResult × Cache
  | 0, _, _, _, cache, _ => (.fuelOut, cache)
  | n + 1, s, sel, p, cache, top =>
    processBody fsys
      (fun v sl c => processSchema fsys bIn bOut n v (some sl) p c false)
      (fun rs sl q c => processSchema fsys bIn bOut n rs (some sl) q c true)
      s sel p bIn bOut cache top

end Processor

namespace Processor

open DMask

-- The general projection property of the properties loop: a key is recorded
-- for output required exactly when the original required array includes it
-- and its processing result was collected into output properties.
theorem ppf_required_iff {σ : Type} (step : JVal → Sel → σ → PResult × σ)
    (sel : Sel) (req : Option JVal) :
    ∀ (entries : List (String × JVal)) (st : σ) (op : List (String × JVal))
      (rq : List String) (st2 : σ),
      processPropsFold step sel req entries st = .ok (op, rq, st2) →
      ∀ k : String, k ∈ rq ↔ (reqIncludes req k = true ∧ k ∈ op.map Prod.fst) := by
  intro entries
  induction entries with
  | nil =>
    intro st op rq st2 h k
    simp only [processPropsFold] at h
    cases h
    simp
  | cons e rest ih =>
    obtain ⟨k0, pv⟩ := e
    intro st op rq st2 h k
    simp only [processPropsFold] at h
    cases hps : propSelOf sel k0 with
    | none =>
      rw [hps] at h
      exact ih st op rq st2 h k
    | some psel =>
      rw [hps] at h
      dsimp only at h
      by_cases ht : truthySel psel = true
      · rw [if_pos ht] at h
        cases hstep : step pv psel st with
        | mk r st3 =>
          rw [hstep] at h
          cases r with
          | res ro =>
            cases ro with
            | none => exact ih st3 op rq st2 h k
            | some o =>
              dsimp only at h
              cases hrec : processPropsFold step sel req rest st3 with
              | error e => rw [hrec] at h; simp at h
              | ok trip =>
                obtain ⟨op2, rq2, st4⟩ := trip
                rw [hrec] at h
                dsimp only at h
                cases h
                have hih := ih st3 op2 rq2 _ hrec k
                by_cases hr : reqIncludes req k0 = true
                · rw [if_pos hr]
                  simp only [List.mem_cons, List.map_cons, hih]
                  constructor
                  · rintro (hk | ⟨hreq, hmem⟩)
                    · exact ⟨hk ▸ hr, Or.inl hk⟩
                    · exact ⟨hreq, Or.inr hmem⟩
                  · rintro ⟨hreq, hk | hmem⟩
                    · exact Or.inl hk
                    · exact Or.inr ⟨hreq, hmem⟩
                · rw [if_neg hr]
                  simp only [List.map_cons, List.mem_cons, hih]
                  constructor
                  · rintro ⟨hreq, hmem⟩
                    exact ⟨hreq, Or.inr hmem⟩
                  · rintro ⟨hreq, hk | hmem⟩
                    · exact absurd (hk ▸ hreq) hr
                    · exact ⟨hreq, hmem⟩
          | marker => exact ih st3 op rq st2 h k
          | err => dsimp only at h; simp at h
          | fuelOut => dsimp only at h; simp at h
      · rw [if_neg ht] at h
        exact ih st op rq st2 h k

-- Concrete fixtures for the claims about the multi-file strategy.

-- Two-document reference cycle: A references B and B references A.
def cycleA : JVal := .vObj [("$ref", .vStr "./B.json")]
def cycleB : JVal := .vObj [("$ref", .vStr "./A.json")]

def fsCycle : String → Option JVal := fun q =>
  if q = "/in/A.json" then some cycleA
  else if q = "/in/B.json" then some cycleB
  else none

-- Object schema with three properties of which two are required.
def c2Schema : JVal := .vObj [
  ("type", .vStr "object"),
  ("properties", .vObj [
    ("a", .vObj [("type", .vStr "string")]),
    ("b", .vObj [("type", .vStr "string")]),
    ("c", .vObj [("type", .vStr "number")])]),
  ("required", .vArr [.vStr "a", .vStr "b"])]

def c2Sel : Sel := .sdet (some [("a", .sbool true)]) none none

def fsEmpty : String → Option JVal := fun _ => none

-- A reference node whose selection detail carries an explicitly false
-- refTargetSelection, and its target document.
def c7Schema : JVal := .vObj [("$ref", .vStr "./B.json")]
def c7Target : JVal := .vObj [("type", .vStr "string")]

def fsC7 : String → Option JVal := fun q =>
  if q = "/in/B.json" then some c7Target else none

def c7Sel : Sel := .sdet none none (some (.sbool false))

end Processor

/-- C1: for the two-document graph in which A references B and B references
back A, with both fully selected, processSchema terminates (the run below
completes within finite fuel instead of looping): the second top-level entry
to the in-progress path /in/A.json hits the marker cache entry and returns
the cycle marker immediately, B therefore emits a rewritten reference back
to the masked A, and the produced outputs each carry a $ref pointing at the
other masked document. -/
theorem c1_cycle_terminates_with_back_reference :
    Processor.processSchema Processor.fsCycle "/in" "/out" 10 Processor.cycleA
      (some (DMask.Sel.sbool true)) "/in/A.json" [] true
      = (.res (some [("$ref", .vStr "./B_m1.json")]),
         [("/in/A.json", .done (some [("$ref", .vStr "./B_m1.json")])),
          ("/in/B.json", .done (some [("$ref", .vStr "./A_m1.json")]))]) := rfl

/-- C2: processing the object schema with properties a, b, c and required
a, b under a selection detail that includes only a yields an output with a
properties map holding exactly the key a and a required array equal to the
one-element list a; and in general, for every run of the properties loop, a
key lands in the output required list exactly when the original required
array includes it and its recursive processing produced a non-null,
non-marker result collected into the output properties. -/
theorem c2_masked_properties_and_required :
    (Processor.processSchema Processor.fsEmpty "/in" "/out" 3 Processor.c2Schema
      (some Processor.c2Sel) "/in/S.json" [] false
      = (.res (some [("type", .vStr "object"),
                     ("properties", .vObj [("a", .vObj [("type", .vStr "string")])]),
                     ("required", .vArr [.vStr "a"])]), [])) ∧
    (∀ (σ : Type) (step : DMask.JVal → DMask.Sel → σ → Processor.PResult × σ)
       (sel : DMask.Sel) (req : Option DMask.JVal)
       (entries : List (String × DMask.JVal)) (st : σ)
       (op : List (String × DMask.JVal)) (rq : List String) (st2 : σ),
       Processor.processPropsFold step sel req entries st = .ok (op, rq, st2) →
       ∀ k : String, k ∈ rq ↔
         (Processor.reqIncludes req k = true ∧ k ∈ op.map Prod.fst)) :=
  ⟨rfl, fun _ step sel req entries st op rq st2 h k =>
    Processor.ppf_required_iff step sel req entries st op rq st2 h k⟩

/-- C2 witness: the general part applied to a concrete one-selected-property
run of the properties loop with a constant processing step. -/
theorem c2_witness :
    "a" ∈ ["a"] ↔
      (Processor.reqIncludes (some (.vArr [.vStr "a", .vStr "b"])) "a" = true ∧
       "a" ∈ ([("a", DMask.JVal.vObj [("type", DMask.JVal.vStr "string")])].map Prod.fst)) :=
  c2_masked_properties_and_required.2 Unit
    (fun _ _ st => (.res (some [("type", .vStr "string")]), st))
    Processor.c2Sel (some (.vArr [.vStr "a", .vStr "b"]))
    [("a", .vObj []), ("b", .vObj [])] ()
    [("a", DMask.JVal.vObj [("type", DMask.JVal.vStr "string")])] ["a"] () rfl "a"

/-- C7 counterexample: the claim says the selection applied to a reference
target is the $refTargetSelection member whenever the detail carries it.
The code computes refSelectionOf, and for a detail carrying the explicitly
false member it yields the literal true, not the carried false; a full run
on a node with such a detail still processes the whole target and emits the
rewritten reference. -/
theorem c7_counterexample :
    Processor.refSelectionOf (DMask.Sel.sdet none none (some (DMask.Sel.sbool false)))
      = DMask.Sel.sbool true ∧
    ¬ (Processor.refSelectionOf (DMask.Sel.sdet none none (some (DMask.Sel.sbool false)))
      = DMask.Sel.sbool false) ∧
    Processor.processSchema Processor.fsC7 "/in" "/out" 5 Processor.c7Schema
      (some Processor.c7Sel) "/in/A.json" [] true
      = (.res (some [("$ref", .vStr "./B_m1.json")]),
         [("/in/A.json", .done (some [("$ref", .vStr "./B_m1.json")])),
          ("/in/B.json", .done (some [("type", .vStr "string")]))]) :=
  ⟨rfl, fun h => Bool.noConfusion (DMask.Sel.sbool.inj h), rfl⟩

/-- C7 amended: the selection applied to the reference target is the
$refTargetSelection member when the selection is a detail carrying a truthy
one; when the member is carried but falsy, absent, or the selection is the
literal true, the applied selection is the literal true (the whole target). -/
theorem c7_ref_target_selection_amended (pf : Option (List (String × DMask.Sel)))
    (itf : Option DMask.Sel) (t : DMask.Sel) :
    (DMask.truthySel t = true →
      Processor.refSelectionOf (DMask.Sel.sdet pf itf (some t)) = t) ∧
    (DMask.truthySel t = false →
      Processor.refSelectionOf (DMask.Sel.sdet pf itf (some t)) = DMask.Sel.sbool true) ∧
    Processor.refSelectionOf (DMask.Sel.sdet pf itf none) = DMask.Sel.sbool true ∧
    Processor.refSelectionOf (DMask.Sel.sbool true) = DMask.Sel.sbool true := by
  refine ⟨fun ht => ?_, fun ht => ?_, rfl, rfl⟩
  · simp [Processor.refSelectionOf, DMask.Sel.refTF, DMask.selIsTrue, DMask.truthySelOpt, ht]
  · simp [Processor.refSelectionOf, DMask.Sel.refTF, DMask.selIsTrue, DMask.truthySelOpt, ht]

/-- C7 witness: the amended rule applied at a truthy carried member and at a
falsy carried member. -/
theorem c7_witness :
    Processor.refSelectionOf (DMask.Sel.sdet none none (some (DMask.Sel.sbool true)))
      = DMask.Sel.sbool true ∧
    Processor.refSelectionOf (DMask.Sel.sdet none none (some (DMask.Sel.sbool false)))
      = DMask.Sel.sbool true :=
  ⟨(c7_ref_target_selection_amended none none (DMask.Sel.sbool true)).1 rfl,
   (c7_ref_target_selection_amended none none (DMask.Sel.sbool false)).2.1 rfl⟩

namespace SingleFile

open DMask Processor

/-- Threaded mutable state of the single-file strategy: the processing
cache, the shared definitions accumulator, and the planned-or-embedded
map from absolute target path to definition key. -/
structure SFSt where
  cache : Cache
  acc : List (String × OutSchema)
  dmap : List (String × String)

def setCache (st : SFSt) (p : String) (v : CacheVal) : SFSt :=
  { st with cache := aset st.cache p v }

def setMap (st : SFSt) (p k : String) : SFSt :=
  { st with dmap := aset st.dmap p k }

def delMap (st : SFSt) (p : String) : SFSt :=
  { st with dmap := aerase st.dmap p }

def setAcc (st : SFSt) (k : String) (o : OutSchema) : SFSt :=
  { st with acc := aset st.acc k o }

def isAlnumUnderscore (c : Char) : Bool :=
  (97 ≤ c.toNat && c.toNat ≤ 122) || (65 ≤ c.toNat && c.toNat ≤ 90) ||
  (48 ≤ c.toNat && c.toNat ≤ 57) || c = '_'

def sanitizeChar (c : Char) : Char :=
  if isAlnumUnderscore c then c else '_'

/-- part_006 generateDefinitionKey (lines 31-37): ref_ followed by the
extension-stripped base name with every character outside letters, digits
and underscore replaced by an underscore. -/
def generateDefinitionKey (absolutePath : String) : String :=
  let baseName := pathBasenameExt absolutePath (pathExtname absolutePath)
  "ref_" ++ String.mk (baseName.data.map sanitizeChar)

def startsWithHash (s : String) : Bool :=
  match s.data with
  | '#' :: _ => true
  | _ => false

/-- Basic keyword copy of the single-file strategy (part_006 lines 220-228):
every non-handled key is copied, with no empty-object filtering. -/
def copyBasicsSF (s : JVal) : OutSchema :=
  (objFields s).filter (fun kv => !basicExcluded kv.1)

/-- The $ref handling of the single-file strategy (part_006 lines 106-218).
Error means an early return of the whole call (a resolved local reference,
a kept internal reference, a null return on a detected cycle, a thrown
error, or fuel exhaustion); ok carries the updated state and falls through
to the structural keywords. -/
def refStageSF (fsys : String → Option JVal)
    (refRec : JVal → Sel → String → SFSt → PResult × SFSt)
    (s : JVal) (sel : Sel) (p : String) (top : Bool) (st : SFSt) :
    Except (PResult × SFSt) SFSt :=
  match getField s "$ref" with
  | some (.vStr r) =>
    if r = "" then .ok st
    else if startsWithHash r then
      let out : OutSchema := [("$ref", JVal.vStr r)]
      .error (.res (some out), if top then setCache st p (.done (some out)) else st)
    else
      if !pathIsAbsolute p then .error (.err, st)
      else
        let refAbs := resolveRefPath r p
        let refSel := refSelectionOf sel
        if truthySel refSel then
          match alookup st.dmap refAbs with
          | some key =>
            let out : OutSchema := [("$ref", JVal.vStr ("#/definitions/" ++ key))]
            .error (.res (some out), if top then setCache st p (.done (some out)) else st)
          | none =>
            match alookup st.cache refAbs with
            | some .marker =>
              .error (.res none, if top then setCache st p (.done none) else st)
            | _ =>
              match fsys refAbs with
              | none => .ok (delMap st refAbs)
              | some rs =>
                let key := generateDefinitionKey refAbs
                let st2 := setMap st refAbs key
                match refRec rs refSel refAbs st2 with
                | (.fuelOut, st3) => .error (.fuelOut, st3)
                | (.err, st3) => .ok (delMap st3 refAbs)
                | (.marker, st3) => .ok (delMap st3 refAbs)
                | (.res none, st3) => .ok (delMap st3 refAbs)
                | (.res (some o), st3) =>
                  if !o.isEmpty then
                    let st4 := setAcc st3 key o
                    let out : OutSchema := [("$ref", JVal.vStr ("#/definitions/" ++ key))]
                    .error (.res (some out), if top then setCache st4 p (.done (some out)) else st4)
                  else .ok (delMap st3 refAbs)
        else .ok st
  | _ => .ok st

/-- The properties block of the single-file strategy (part_006 lines
236-285): identical to the multi-file one but reached only when no $ref
returned early, so it carries no output-$ref guard. -/
def propsStageSF (step : JVal → Sel → SFSt → PResult × SFSt)
    (s : JVal) (sel : Sel) (out : OutSchema) (hc : Bool) (st : SFSt) :
    Except (PResult × SFSt) (OutSchema × Bool × SFSt) :=
  match getField s "properties" with
  | some pv =>
    if jTruthy pv && propsGuard sel then
      match processPropsFold step sel (getField s "required") (objFields pv) st with
      | .error e => .error e
      | .ok (op, rq, st2) =>
        if !op.isEmpty then .ok (propsOut s out op rq, true, st2)
        else .ok (propsCleanup out, hc, st2)
    else .ok (out, hc, st)
  | none => .ok (out, hc, st)

/-- The items block of the single-file strategy (part_006 lines 287-316). -/
def itemsStageSF (step : JVal → Sel → SFSt → PResult × SFSt)
    (s : JVal) (sel : Sel) (out : OutSchema) (hc : Bool) (st : SFSt) :
    Except (PResult × SFSt) (OutSchema × Bool × SFSt) :=
  match getField s "items" with
  | some (.vObj il) =>
    if itemsGuard sel then
      match itemsSelOf sel with
      | some isel =>
        if truthySel isel then
          match step (.vObj il) isel st with
          | (.res (some o), st2) => .ok (itemsOut s out o, true, st2)
          | (.res none, st2) => .ok (itemsCleanup out, hc, st2)
          | (.marker, st2) => .ok (out, hc, st2)
          | (.err, st2) => .error (.err, st2)
          | (.fuelOut, st2) => .error (.fuelOut, st2)
        else .ok (out, hc, st)
      | none => .ok (out, hc, st)
    else .ok (out, hc, st)
  | _ => .ok (out, hc, st)

/-- The member loop of one composition keyword (part_006 lines 319-349):
object members are processed with the parent selection; null and marker
results are skipped, non-object members are skipped with a warning. -/
def compFold (step : JVal → Sel → SFSt → PResult × SFSt) (sel : Sel) :
    List JVal → SFSt → Except (PResult × SFSt) (List OutSchema × SFSt)
  | [], st => .ok ([], st)
  | v :: rest, st =>
    match v with
    | .vObj _ =>
      match step v sel st with
      | (.res (some o), st2) =>
        match compFold step sel rest st2 with
        | .error e => .error e
        | .ok (cl, st3) => .ok (o :: cl, st3)
      | (.res none, st2) => compFold step sel rest st2
      | (.marker, st2) => compFold step sel rest st2
      | (.err, st2) => .error (.err, st2)
      | (.fuelOut, st2) => .error (.fuelOut, st2)
    | _ => compFold step sel rest st

/-- One composition keyword (part_006 lines 319-360): when the original
member list is an array and at least one member produced content, the
output carries the keyword with the collected members. -/
def compStage (step : JVal → Sel → SFSt → PResult × SFSt)
    (s : JVal) (sel : Sel) (kw : String) (out : OutSchema) (hc : Bool) (st : SFSt) :
    Except (PResult × SFSt) (OutSchema × Bool × SFSt) :=
  match getField s kw with
  | some (.vArr l) =>
    match compFold step sel l st with
    | .error e => .error e
    | .ok (cl, st2) =>
      if !cl.isEmpty then .ok (aset out kw (.vArr (cl.map JVal.vObj)), true, st2)
      else .ok (out, hc, st2)
  | _ => .ok (out, hc, st)

/-- One call of the single-file processSchema (part_006 lines 54-376), with
the recursion broken out into `step` and `refRec`.  A falsy selection at a
top-level call stores a null result (not a deletion, unlike the multi-file
variant); the basic keywords are copied only after the $ref handling did
not return early; composition keywords are processed after properties and
items; a finished top-level body always stores its final result. -/
def processBodySF (fsys : String → Option JVal)
    (step : JVal → Sel → SFSt → PResult × SFSt)
    (refRec : JVal → Sel → String → SFSt → PResult × SFSt)
    (s : JVal) (sel : Option Sel) (p : String) (st : SFSt) (top : Bool) :
    PResult × SFSt :=
  match (if top then alookup st.cache p else none) with
  | some .marker => (.marker, st)
  | some (.done v) => (.res v, st)
  | none =>
    let st1 := if top then setCache st p .marker else st
    if !truthySelOpt sel then
      (.res none, if top then setCache st1 p (.done none) else st1)
    else
      let sel1 := sel.getD (Sel.sbool false)
      match refStageSF fsys refRec s sel1 p top st1 with
      | .error e => e
      | .ok st2 =>
        let basics := copyBasicsSF s
        let hc0 := selIsTrue sel1 && !basics.isEmpty
        match propsStageSF step s sel1 basics hc0 st2 with
        | .error e => e
        | .ok (out1, hc1, st3) =>
          match itemsStageSF step s sel1 out1 hc1 st3 with
          | .error e => e
          | .ok (out2, hc2, st4) =>
            match compStage step s sel1 "allOf" out2 hc2 st4 with
            | .error e => e
            | .ok (out3, hc3, st5) =>
              match compStage step s sel1 "anyOf" out3 hc3 st5 with
              | .error e => e
              | .ok (out4, hc4, st6) =>
                match compStage step s sel1 "oneOf" out4 hc4 st6 with
                | .error e => e
                | .ok (out5, hc5, st7) =>
                  let fin := if hc5 then some out5 else none
                  (.res fin, if top then setCache st7 p (.done fin) else st7)

/-- processSchema of the single-file strategy (part_006 lines 54-376):
fuel-bounded recursion; an external reference target is processed as a
top-level call for its own path and embedded into the shared definitions
accumulator under its generated key. -/
def processSchema (fsys : String → Option JVal) (bIn bOut maskSuffix : String) :
    Nat → JVal → Option Sel → String → SFSt → Bool → PResult × SFSt
  | 0, _, _, _, st, _ => (.fuelOut, st)
  | n + 1, s, sel, p, st, top =>
    processBodySF fsys
      (fun v sl c => processSchema fsys bIn bOut maskSuffix n v (some sl) p c false)
      (fun rs sl q c => processSchema fsys bIn bOut maskSuffix n rs (some sl) q c true)
      s sel p st top

end SingleFile

namespace SingleFile

open DMask Processor

-- Concrete fixtures for the single-file strategy claims.

-- A main document referencing the same external document from two
-- different selected properties.
def c6Main : JVal := .vObj [
  ("type", .vStr "object"),
  ("properties", .vObj [
    ("home", .vObj [("$ref", .vStr "./Address.json")]),
    ("work", .vObj [("$ref", .vStr "./Address.json")])])]

def c6Addr : JVal := .vObj [
  ("type", .vStr "object"),
  ("properties", .vObj [("street", .vObj [("type", .vStr "string")])])]

def fsC6 : String → Option JVal := fun q =>
  if q = "/in/Main.json" then some c6Main
  else if q = "/in/Address.json" then some c6Addr
  else none

-- Two distinct referenced documents in different directories sharing the
-- base name Item.json, with different content.
def c10Main : JVal := .vObj [
  ("properties", .vObj [
    ("x", .vObj [("$ref", .vStr "./a/Item.json")]),
    ("y", .vObj [("$ref", .vStr "./b/Item.json")])])]

def c10ItemA : JVal := .vObj [("type", .vStr "string")]
def c10ItemB : JVal := .vObj [("type", .vStr "integer")]

def fsC10 : String → Option JVal := fun q =>
  if q = "/in/M.json" then some c10Main
  else if q = "/in/a/Item.json" then some c10ItemA
  else if q = "/in/b/Item.json" then some c10ItemB
  else none

end SingleFile

/-- C6: in the single-file strategy, a main document whose two selected
properties both reference Address.json produces a combined state whose
definitions accumulator holds exactly one entry for that document, and both
referencing output nodes carry the same local fragment reference; the
second encounter reuses the key recorded in the planned-or-embedded map
instead of reprocessing. -/
theorem c6_single_definition_shared_fragment :
    SingleFile.processSchema SingleFile.fsC6 "/in" "/out" "_m1" 6 SingleFile.c6Main
      (some (DMask.Sel.sbool true)) "/in/Main.json" ⟨[], [], []⟩ true
      = (.res (some [("type", .vStr "object"),
           ("properties", .vObj [
             ("home", .vObj [("$ref", .vStr "#/definitions/ref_Address")]),
             ("work", .vObj [("$ref", .vStr "#/definitions/ref_Address")])])]),
         ⟨[("/in/Main.json", .done (some [("type", .vStr "object"),
             ("properties", .vObj [
               ("home", .vObj [("$ref", .vStr "#/definitions/ref_Address")]),
               ("work", .vObj [("$ref", .vStr "#/definitions/ref_Address")])])])),
           ("/in/Address.json", .done (some [("type", .vStr "object"),
             ("properties", .vObj [("street", .vObj [("type", .vStr "string")])])]))],
          [("ref_Address", [("type", .vStr "object"),
             ("properties", .vObj [("street", .vObj [("type", .vStr "string")])])])],
          [("/in/Address.json", "ref_Address")]⟩) := rfl

/-- C10: the single-file definition key depends only on the referenced file
base name (two paths with the same extension-stripped base name receive the
same key), the two fixture documents in different directories both map to
ref_Item, and in the full run the later-embedded document overwrites the
earlier entry in the shared definitions accumulator, which ends with the
single entry carrying the second content while both output nodes point at
the same fragment. -/
theorem c10_definition_key_collision_overwrites :
    (∀ p q : String,
       DMask.pathBasenameExt p (DMask.pathExtname p)
         = DMask.pathBasenameExt q (DMask.pathExtname q) →
       SingleFile.generateDefinitionKey p = SingleFile.generateDefinitionKey q) ∧
    SingleFile.generateDefinitionKey "/in/a/Item.json" = "ref_Item" ∧
    SingleFile.generateDefinitionKey "/in/b/Item.json" = "ref_Item" ∧
    SingleFile.processSchema SingleFile.fsC10 "/in" "/out" "_m1" 6 SingleFile.c10Main
      (some (DMask.Sel.sbool true)) "/in/M.json" ⟨[], [], []⟩ true
      = (.res (some [("properties", .vObj [
             ("x", .vObj [("$ref", .vStr "#/definitions/ref_Item")]),
             ("y", .vObj [("$ref", .vStr "#/definitions/ref_Item")])])]),
         ⟨[("/in/M.json", .done (some [("properties", .vObj [
               ("x", .vObj [("$ref", .vStr "#/definitions/ref_Item")]),
               ("y", .vObj [("$ref", .vStr "#/definitions/ref_Item")])])])),
           ("/in/a/Item.json", .done (some [("type", .vStr "string")])),
           ("/in/b/Item.json", .done (some [("type", .vStr "integer")]))],
          [("ref_Item", [("type", .vStr "integer")])],
          [("/in/a/Item.json", "ref_Item"), ("/in/b/Item.json", "ref_Item")]⟩) :=
  ⟨fun p q h => by unfold SingleFile.generateDefinitionKey; rw [h],
   rfl, rfl, rfl⟩

/-- C10 witness: the base-name-only rule applied to the two fixture paths. -/
theorem c10_witness :
    DMask.pathBasenameExt "/in/a/Item.json" (DMask.pathExtname "/in/a/Item.json")
      = DMask.pathBasenameExt "/in/b/Item.json" (DMask.pathExtname "/in/b/Item.json") ∧
    SingleFile.generateDefinitionKey "/in/a/Item.json"
      = SingleFile.generateDefinitionKey "/in/b/Item.json" :=
  ⟨by decide, c10_definition_key_collision_overwrites.1 "/in/a/Item.json" "/in/b/Item.json" (by decide)⟩

namespace Processor

open DMask

theorem alookup_aset_ne {α : Type} (k k2 : String) (v : α) (h : k ≠ k2) :
    ∀ l : List (String × α), alookup (aset l k v) k2 = alookup l k2
  | [] => by simp [aset, alookup, h]
  | (k0, v0) :: rest => by
    simp only [aset]
    by_cases hk : k0 = k
    · subst hk
      simp [alookup, h]
    · rw [if_neg hk]
      simp only [alookup]
      by_cases hk2 : k0 = k2
      · simp [hk2]
      · simp only [if_neg hk2]
        exact alookup_aset_ne k k2 v h rest

theorem alookup_aerase_ne {α : Type} (k k2 : String) (h : k ≠ k2) :
    ∀ l : List (String × α), alookup (aerase l k) k2 = alookup l k2
  | [] => rfl
  | (k0, v0) :: rest => by
    simp only [aerase]
    by_cases hk : k0 = k
    · subst hk
      simp [alookup, h]
    · rw [if_neg hk]
      simp only [alookup]
      by_cases hk2 : k0 = k2
      · simp [hk2]
      · simp only [if_neg hk2]
        exact alookup_aerase_ne k k2 h rest

theorem alookup_filter_no_key {α : Type} (pred : String × α → Bool) (k : String)
    (h : ∀ v : α, pred (k, v) = false) :
    ∀ l : List (String × α), alookup (l.filter pred) k = none
  | [] => rfl
  | (k0, v0) :: rest => by
    by_cases hp : pred (k0, v0) = true
    · rw [List.filter_cons_of_pos hp]
      simp only [alookup]
      by_cases hk : k0 = k
      · subst hk
        rw [h v0] at hp
        cases hp
      · rw [if_neg hk]
        exact alookup_filter_no_key pred k h rest
    · rw [List.filter_cons_of_neg (by simpa using hp)]
      exact alookup_filter_no_key pred k h rest

theorem copyBasics_ref_none (s : JVal) : alookup (copyBasics s) "$ref" = none :=
  alookup_filter_no_key _ _ (fun v => by simp [basicExcluded, keepBasicVal]) (objFields s)

theorem copyBasicsSF_ref_none (s : JVal) :
    alookup (SingleFile.copyBasicsSF s) "$ref" = none :=
  alookup_filter_no_key _ _ (fun v => by simp [basicExcluded]) (objFields s)

theorem ppf_error {σ : Type} (step : JVal → Sel → σ → PResult × σ)
    (sel : Sel) (req : Option JVal) :
    ∀ (entries : List (String × JVal)) (st : σ) (e : PResult × σ),
      processPropsFold step sel req entries st = .error e →
      e.1 = .err ∨ e.1 = .fuelOut
  | [], st, e, h => by simp [processPropsFold] at h
  | (k, pv) :: rest, st, e, h => by
    simp only [processPropsFold] at h
    cases hps : propSelOf sel k with
    | none =>
      rw [hps] at h
      exact ppf_error step sel req rest st e h
    | some psel =>
      rw [hps] at h
      dsimp only at h
      by_cases ht : truthySel psel = true
      · rw [if_pos ht] at h
        cases hstep : step pv psel st with
        | mk r st2 =>
          rw [hstep] at h
          cases r with
          | res ro =>
            cases ro with
            | none => exact ppf_error step sel req rest st2 e h
            | some o =>
              dsimp only at h
              cases hrec : processPropsFold step sel req rest st2 with
              | error e2 =>
                rw [hrec] at h
                dsimp only at h
                cases h
                exact ppf_error step sel req rest st2 e hrec
              | ok trip =>
                obtain ⟨op2, rq2, st3⟩ := trip
                rw [hrec] at h
                simp at h
          | marker => exact ppf_error step sel req rest st2 e h
          | err => dsimp only at h; cases h; exact Or.inl rfl
          | fuelOut => dsimp only at h; cases h; exact Or.inr rfl
      · rw [if_neg ht] at h
        exact ppf_error step sel req rest st e h

theorem compFold_error (step : JVal → Sel → SingleFile.SFSt → PResult × SingleFile.SFSt)
    (sel : Sel) :
    ∀ (l : List JVal) (st : SingleFile.SFSt) (e : PResult × SingleFile.SFSt),
      SingleFile.compFold step sel l st = .error e →
      e.1 = .err ∨ e.1 = .fuelOut
  | [], st, e, h => by simp [SingleFile.compFold] at h
  | v :: rest, st, e, h => by
    simp only [SingleFile.compFold] at h
    cases v with
    | vObj fields =>
      cases hstep : step (.vObj fields) sel st with
      | mk r st2 =>
        rw [hstep] at h
        cases r with
        | res ro =>
          cases ro with
          | none => exact compFold_error step sel rest st2 e h
          | some o =>
            dsimp only at h
            cases hrec : SingleFile.compFold step sel rest st2 with
            | error e2 =>
              rw [hrec] at h
              dsimp only at h
              cases h
              exact compFold_error step sel rest st2 e hrec
            | ok pair =>
              obtain ⟨cl, st3⟩ := pair
              rw [hrec] at h
              simp at h
        | marker => exact compFold_error step sel rest st2 e h
        | err => dsimp only at h; cases h; exact Or.inl rfl
        | fuelOut => dsimp only at h; cases h; exact Or.inr rfl
    | vBool b => exact compFold_error step sel rest st e h
    | vNum n => exact compFold_error step sel rest st e h
    | vStr s2 => exact compFold_error step sel rest st e h
    | vNull => exact compFold_error step sel rest st e h
    | vArr l2 => exact compFold_error step sel rest st e h


-- Specialized no-interference lemmas for the output keys the stages write.

theorem aset_type_ref (l : OutSchema) (v : JVal) :
    alookup (aset l "type" v) "$ref" = alookup l "$ref" :=
  alookup_aset_ne _ _ _ (by decide) l

theorem aset_props_ref (l : OutSchema) (v : JVal) :
    alookup (aset l "properties" v) "$ref" = alookup l "$ref" :=
  alookup_aset_ne _ _ _ (by decide) l

theorem aset_req_ref (l : OutSchema) (v : JVal) :
    alookup (aset l "required" v) "$ref" = alookup l "$ref" :=
  alookup_aset_ne _ _ _ (by decide) l

theorem aset_items_ref (l : OutSchema) (v : JVal) :
    alookup (aset l "items" v) "$ref" = alookup l "$ref" :=
  alookup_aset_ne _ _ _ (by decide) l

theorem aerase_type_ref (l : OutSchema) :
    alookup (aerase l "type") "$ref" = alookup l "$ref" :=
  alookup_aerase_ne _ _ (by decide) l

theorem propsOut_ref (s : JVal) (out : OutSchema) (op : List (String × JVal))
    (rq : List String) :
    alookup (propsOut s out op rq) "$ref" = alookup out "$ref" := by
  unfold propsOut
  dsimp only
  split
  · rw [aset_req_ref, aset_props_ref]
    split
    · rw [aset_type_ref]
    · rfl
  · rw [aset_props_ref]
    split
    · rw [aset_type_ref]
    · rfl

theorem propsCleanup_ref (out : OutSchema) :
    alookup (propsCleanup out) "$ref" = alookup out "$ref" := by
  unfold propsCleanup
  split
  · rw [aerase_type_ref]
  · rfl

theorem itemsOut_ref (s : JVal) (out o : OutSchema) :
    alookup (itemsOut s out o) "$ref" = alookup out "$ref" := by
  unfold itemsOut
  dsimp only
  rw [aset_items_ref]
  split
  · rw [aset_type_ref]
  · rfl

theorem itemsCleanup_ref (out : OutSchema) :
    alookup (itemsCleanup out) "$ref" = alookup out "$ref" := by
  unfold itemsCleanup
  split
  · rw [aerase_type_ref]
  · rfl

theorem propsStage_ref (step : JVal → Sel → Cache → PResult × Cache)
    (s : JVal) (sel : Sel) (out : OutSchema) (hc : Bool) (cache : Cache)
    (out1 : OutSchema) (hc1 : Bool) (c1 : Cache)
    (h : propsStage step s sel out hc cache = .ok (out1, hc1, c1)) :
    alookup out1 "$ref" = alookup out "$ref" ∧
    (outRefTruthy out = true → out1 = out) := by
  unfold propsStage at h
  by_cases hg : outRefTruthy out = true
  · rw [if_pos hg] at h
    cases h
    exact ⟨rfl, fun _ => rfl⟩
  · rw [if_neg hg] at h
    refine ⟨?_, fun hy => absurd hy hg⟩
    cases hpv : getField s "properties" with
    | none => rw [hpv] at h; cases h; rfl
    | some pv =>
      rw [hpv] at h
      dsimp only at h
      by_cases hgg : (jTruthy pv && propsGuard sel) = true
      · rw [if_pos hgg] at h
        cases hfold : processPropsFold step sel (getField s "required") (objFields pv) cache with
        | error e => rw [hfold] at h; simp at h
        | ok trip =>
          obtain ⟨op, rq, cache2⟩ := trip
          rw [hfold] at h
          dsimp only at h
          by_cases hop : (!op.isEmpty) = true
          · rw [if_pos hop] at h
            cases h
            exact propsOut_ref s out op rq
          · rw [if_neg hop] at h
            cases h
            exact propsCleanup_ref out
      · rw [if_neg hgg] at h
        cases h
        rfl

theorem propsStage_error (step : JVal → Sel → Cache → PResult × Cache)
    (s : JVal) (sel : Sel) (out : OutSchema) (hc : Bool) (cache : Cache)
    (e : PResult × Cache)
    (h : propsStage step s sel out hc cache = .error e) :
    e.1 = .err ∨ e.1 = .fuelOut := by
  unfold propsStage at h
  by_cases hg : outRefTruthy out = true
  · rw [if_pos hg] at h; cases h
  · rw [if_neg hg] at h
    cases hpv : getField s "properties" with
    | none => rw [hpv] at h; cases h
    | some pv =>
      rw [hpv] at h
      dsimp only at h
      by_cases hgg : (jTruthy pv && propsGuard sel) = true
      · rw [if_pos hgg] at h
        cases hfold : processPropsFold step sel (getField s "required") (objFields pv) cache with
        | error e2 =>
          rw [hfold] at h
          dsimp only at h
          cases h
          exact ppf_error step sel _ _ _ _ hfold
        | ok trip =>
          obtain ⟨op, rq, cache2⟩ := trip
          rw [hfold] at h
          dsimp only at h
          by_cases hop : (!op.isEmpty) = true
          · rw [if_pos hop] at h; cases h
          · rw [if_neg hop] at h; cases h
      · rw [if_neg hgg] at h
        cases h

theorem itemsStage_ref (step : JVal → Sel → Cache → PResult × Cache)
    (s : JVal) (sel : Sel) (out : OutSchema) (hc : Bool) (cache : Cache)
    (out1 : OutSchema) (hc1 : Bool) (c1 : Cache)
    (h : itemsStage step s sel out hc cache = .ok (out1, hc1, c1)) :
    alookup out1 "$ref" = alookup out "$ref" ∧
    (outRefTruthy out = true → out1 = out) := by
  unfold itemsStage at h
  by_cases hg : outRefTruthy out = true
  · rw [if_pos hg] at h
    cases h
    exact ⟨rfl, fun _ => rfl⟩
  · rw [if_neg hg] at h
    refine ⟨?_, fun hy => absurd hy hg⟩
    cases hiv : getField s "items" with
    | none => rw [hiv] at h; cases h; rfl
    | some iv =>
      rw [hiv] at h
      cases iv with
      | vObj il =>
        dsimp only at h
        by_cases hig : itemsGuard sel = true
        · rw [if_pos hig] at h
          cases his : itemsSelOf sel with
          | none => rw [his] at h; cases h; rfl
          | some isel =>
            rw [his] at h
            dsimp only at h
            by_cases ht : truthySel isel = true
            · rw [if_pos ht] at h
              cases hstep : step (.vObj il) isel cache with
              | mk r c2 =>
                rw [hstep] at h
                cases r with
                | res ro =>
                  cases ro with
                  | none => dsimp only at h; cases h; exact itemsCleanup_ref out
                  | some o => dsimp only at h; cases h; exact itemsOut_ref s out o
                | marker => dsimp only at h; cases h; rfl
                | err => dsimp only at h; cases h
                | fuelOut => dsimp only at h; cases h
            · rw [if_neg ht] at h
              cases h
              rfl
        · rw [if_neg hig] at h
          cases h
          rfl
      | vBool b => cases h; rfl
      | vNum n => cases h; rfl
      | vStr s2 => cases h; rfl
      | vNull => cases h; rfl
      | vArr l2 => cases h; rfl

theorem itemsStage_error (step : JVal → Sel → Cache → PResult × Cache)
    (s : JVal) (sel : Sel) (out : OutSchema) (hc : Bool) (cache : Cache)
    (e : PResult × Cache)
    (h : itemsStage step s sel out hc cache = .error e) :
    e.1 = .err ∨ e.1 = .fuelOut := by
  unfold itemsStage at h
  by_cases hg : outRefTruthy out = true
  · rw [if_pos hg] at h; cases h
  · rw [if_neg hg] at h
    cases hiv : getField s "items" with
    | none => rw [hiv] at h; cases h
    | some iv =>
      rw [hiv] at h
      cases iv with
      | vObj il =>
        dsimp only at h
        by_cases hig : itemsGuard sel = true
        · rw [if_pos hig] at h
          cases his : itemsSelOf sel with
          | none => rw [his] at h; cases h
          | some isel =>
            rw [his] at h
            dsimp only at h
            by_cases ht : truthySel isel = true
            · rw [if_pos ht] at h
              cases hstep : step (.vObj il) isel cache with
              | mk r c2 =>
                rw [hstep] at h
                cases r with
                | res ro =>
                  cases ro with
                  | none => dsimp only at h; cases h
                  | some o => dsimp only at h; cases h
                | marker => dsimp only at h; cases h
                | err => dsimp only at h; cases h; exact Or.inl rfl
                | fuelOut => dsimp only at h; cases h; exact Or.inr rfl
            · rw [if_neg ht] at h
              cases h
        · rw [if_neg hig] at h
          cases h
      | vBool b => cases h
      | vNum n => cases h
      | vStr s2 => cases h
      | vNull => cases h
      | vArr l2 => cases h

theorem refStage_shape (fsys : String → Option JVal)
    (refRec : JVal → Sel → String → Cache → PResult × Cache)
    (s : JVal) (sel : Sel) (basics : OutSchema) (hc0 : Bool)
    (p bIn bOut : String) (cache : Cache) :
    (match refStage fsys refRec s sel basics hc0 p bIn bOut cache with
     | .ok (out0, _, _) => out0 = basics ∨ ∃ r : String, out0 = [("$ref", JVal.vStr r)]
     | .error e => e.1 = PResult.err ∨ e.1 = PResult.fuelOut) := by
  unfold refStage
  cases hrv : getField s "$ref" with
  | none => exact Or.inl rfl
  | some rv =>
    dsimp only
    by_cases hj : jTruthy rv = true
    · rw [if_pos hj]
      by_cases habs : (!pathIsAbsolute p) = true
      · rw [if_pos habs]
        exact Or.inl rfl
      · rw [if_neg habs]
        cases rv with
        | vStr r =>
          dsimp only
          by_cases hts : truthySel (refSelectionOf sel) = true
          · rw [if_pos hts]
            cases hcl : alookup cache (resolveRefPath r p) with
            | some cv =>
              cases cv with
              | marker => exact Or.inr ⟨_, rfl⟩
              | done v =>
                cases v with
                | none => exact Or.inl rfl
                | some o =>
                  dsimp only
                  by_cases ho : (!o.isEmpty) = true
                  · rw [if_pos ho]
                    exact Or.inr ⟨_, rfl⟩
                  · rw [if_neg ho]
                    exact Or.inl rfl
            | none =>
              cases hfs : fsys (resolveRefPath r p) with
              | none => exact Or.inl rfl
              | some rs =>
                dsimp only
                cases hrc : refRec rs (refSelectionOf sel) (resolveRefPath r p) cache with
                | mk r2 c2 =>
                  cases r2 with
                  | res ro =>
                    cases ro with
                    | none => exact Or.inl rfl
                    | some o =>
                      dsimp only
                      by_cases ho : (!o.isEmpty) = true
                      · rw [if_pos ho]
                        exact Or.inr ⟨_, rfl⟩
                      · rw [if_neg ho]
                        exact Or.inl rfl
                  | marker => exact Or.inr ⟨_, rfl⟩
                  | err => exact Or.inl rfl
                  | fuelOut => exact Or.inr rfl
          · rw [if_neg hts]
            exact Or.inl rfl
        | vBool b => exact Or.inl rfl
        | vNum n => exact Or.inl rfl
        | vNull => exact Or.inl rfl
        | vArr l => exact Or.inl rfl
        | vObj l => exact Or.inl rfl
    · rw [if_neg hj]
      exact Or.inl rfl

def refOnly (o : OutSchema) : Prop :=
  jTruthyOpt (alookup o "$ref") = true → ∃ r : String, o = [("$ref", JVal.vStr r)]

def cacheWF (cache : Cache) : Prop :=
  ∀ (q : String) (v : OutSchema),
    alookup cache q = some (.done (some v)) → refOnly v

theorem processBody_refOnly (fsys : String → Option JVal)
    (step : JVal → Sel → Cache → PResult × Cache)
    (refRec : JVal → Sel → String → Cache → PResult × Cache)
    (s : JVal) (sel : Option Sel) (p bIn bOut : String)
    (cache : Cache) (top : Bool)
    (hcw : cacheWF cache) (o : OutSchema)
    (h : (processBody fsys step refRec s sel p bIn bOut cache top).1 = .res (some o)) :
    refOnly o := by
  unfold processBody at h
  cases htop : (if top then alookup cache p else none) with
  | some cv =>
    rw [htop] at h
    cases cv with
    | marker => simp at h
    | done v =>
      dsimp only at h
      cases v with
      | none => simp at h
      | some v2 =>
        have hv : v2 = o := by simpa using h
        subst hv
        have htt : top = true := by
          cases top with
          | false => simp at htop
          | true => rfl
        rw [htt] at htop
        simp only [if_pos] at htop
        exact hcw p v2 htop
  | none =>
    rw [htop] at h
    dsimp only at h
    by_cases hts : truthySelOpt sel = true
    · rw [if_neg (by simp [hts] : ¬((!truthySelOpt sel) = true))] at h
      set sel1 := sel.getD (Sel.sbool false) with hsel1
      set cache1 := (if top then aset cache p CacheVal.marker else cache) with hcache1
      have hshape := refStage_shape fsys refRec s sel1 (copyBasics s)
        (selIsTrue sel1 && !(copyBasics s).isEmpty) p bIn bOut cache1
      cases href : refStage fsys refRec s sel1 (copyBasics s)
          (selIsTrue sel1 && !(copyBasics s).isEmpty) p bIn bOut cache1 with
      | error e =>
        rw [href] at h hshape
        dsimp only at h hshape
        rcases hshape with he | he <;> rw [he] at h <;> simp at h
      | ok trip =>
        obtain ⟨out0, hc1, c2⟩ := trip
        rw [href] at h hshape
        dsimp only at h hshape
        cases hprops : propsStage step s sel1 out0 hc1 c2 with
        | error e =>
          rw [hprops] at h
          dsimp only at h
          have := propsStage_error step s sel1 out0 hc1 c2 e hprops
          rcases this with he | he <;> rw [he] at h <;> simp at h
        | ok trip2 =>
          obtain ⟨out1, hc2, c3⟩ := trip2
          rw [hprops] at h
          dsimp only at h
          have hp := propsStage_ref step s sel1 out0 hc1 c2 out1 hc2 c3 hprops
          cases hitems : itemsStage step s sel1 out1 hc2 c3 with
          | error e =>
            rw [hitems] at h
            dsimp only at h
            have := itemsStage_error step s sel1 out1 hc2 c3 e hitems
            rcases this with he | he <;> rw [he] at h <;> simp at h
          | ok trip3 =>
            obtain ⟨out2, hc3b, c4⟩ := trip3
            rw [hitems] at h
            dsimp only at h
            have hi := itemsStage_ref step s sel1 out1 hc2 c3 out2 hc3b c4 hitems
            by_cases hcont : hc3b = true
            · rw [hcont] at h
              have hout : out2 = o := by simpa using h
              subst hout
              intro htr
              rcases hshape with hb | ⟨r, hr⟩
              · exfalso
                rw [hi.1, hp.1, hb, copyBasics_ref_none s] at htr
                simp [jTruthyOpt] at htr
              · by_cases hrt : outRefTruthy out0 = true
                · have h1 := hp.2 hrt
                  have h2 := hi.2 (h1 ▸ hrt)
                  exact ⟨r, by rw [h2, h1, hr]⟩
                · exfalso
                  rw [hi.1, hp.1] at htr
                  exact hrt htr
            · have hcf : hc3b = false := by
                cases hc3b with
                | false => rfl
                | true => exact absurd rfl hcont
              rw [hcf] at h
              simp at h
    · rw [if_pos (by simp [Bool.not_eq_true] at hts ⊢; exact hts : (!truthySelOpt sel) = true)] at h
      simp at h

theorem processSchema_refOnly (fsys : String → Option JVal) (bIn bOut : String)
    (fuel : Nat) (s : JVal) (sel : Option Sel) (p : String) (cache : Cache)
    (top : Bool) (r : PResult) (c2 : Cache) (hcw : cacheWF cache)
    (h : processSchema fsys bIn bOut fuel s sel p cache top = (r, c2))
    (o : OutSchema) (hr : r = .res (some o)) : refOnly o := by
  cases fuel with
  | zero =>
    rw [hr] at h
    simp [processSchema] at h
  | succ n =>
    refine processBody_refOnly fsys
      (fun v sl c => processSchema fsys bIn bOut n v (some sl) p c false)
      (fun rs2 sl q c => processSchema fsys bIn bOut n rs2 (some sl) q c true)
      s sel p bIn bOut cache top hcw o ?_
    calc (processBody fsys
        (fun v sl c => processSchema fsys bIn bOut n v (some sl) p c false)
        (fun rs2 sl q c => processSchema fsys bIn bOut n rs2 (some sl) q c true)
        s sel p bIn bOut cache top).1
        = (processSchema fsys bIn bOut (n + 1) s sel p cache top).1 := rfl
      _ = (r, c2).1 := by rw [h]
      _ = .res (some o) := hr

end Processor

namespace SingleFile

open DMask Processor


theorem propsStageSF_ref (step : JVal → Sel → SFSt → PResult × SFSt)
    (s : JVal) (sel : Sel) (out : OutSchema) (hc : Bool) (st : SFSt)
    (out1 : OutSchema) (hc1 : Bool) (st1 : SFSt)
    (h : propsStageSF step s sel out hc st = .ok (out1, hc1, st1)) :
    alookup out1 "$ref" = alookup out "$ref" := by
  unfold propsStageSF at h
  cases hpv : getField s "properties" with
  | none => rw [hpv] at h; cases h; rfl
  | some pv =>
    rw [hpv] at h
    dsimp only at h
    by_cases hgg : (jTruthy pv && propsGuard sel) = true
    · rw [if_pos hgg] at h
      cases hfold : processPropsFold step sel (getField s "required") (objFields pv) st with
      | error e => rw [hfold] at h; simp at h
      | ok trip =>
        obtain ⟨op, rq, st2⟩ := trip
        rw [hfold] at h
        dsimp only at h
        by_cases hop : (!op.isEmpty) = true
        · rw [if_pos hop] at h
          cases h
          exact propsOut_ref s out op rq
        · rw [if_neg hop] at h
          cases h
          exact propsCleanup_ref out
    · rw [if_neg hgg] at h
      cases h
      rfl

theorem propsStageSF_error (step : JVal → Sel → SFSt → PResult × SFSt)
    (s : JVal) (sel : Sel) (out : OutSchema) (hc : Bool) (st : SFSt)
    (e : PResult × SFSt)
    (h : propsStageSF step s sel out hc st = .error e) :
    e.1 = .err ∨ e.1 = .fuelOut := by
  unfold propsStageSF at h
  cases hpv : getField s "properties" with
  | none => rw [hpv] at h; cases h
  | some pv =>
    rw [hpv] at h
    dsimp only at h
    by_cases hgg : (jTruthy pv && propsGuard sel) = true
    · rw [if_pos hgg] at h
      cases hfold : processPropsFold step sel (getField s "required") (objFields pv) st with
      | error e2 =>
        rw [hfold] at h
        dsimp only at h
        cases h
        exact ppf_error step sel _ _ _ _ hfold
      | ok trip =>
        obtain ⟨op, rq, st2⟩ := trip
        rw [hfold] at h
        dsimp only at h
        by_cases hop : (!op.isEmpty) = true
        · rw [if_pos hop] at h; cases h
        · rw [if_neg hop] at h; cases h
    · rw [if_neg hgg] at h
      cases h

theorem itemsStageSF_ref (step : JVal → Sel → SFSt → PResult × SFSt)
    (s : JVal) (sel : Sel) (out : OutSchema) (hc : Bool) (st : SFSt)
    (out1 : OutSchema) (hc1 : Bool) (st1 : SFSt)
    (h : itemsStageSF step s sel out hc st = .ok (out1, hc1, st1)) :
    alookup out1 "$ref" = alookup out "$ref" := by
  unfold itemsStageSF at h
  cases hiv : getField s "items" with
  | none => rw [hiv] at h; cases h; rfl
  | some iv =>
    rw [hiv] at h
    cases iv with
    | vObj il =>
      dsimp only at h
      by_cases hig : itemsGuard sel = true
      · rw [if_pos hig] at h
        cases his : itemsSelOf sel with
        | none => rw [his] at h; cases h; rfl
        | some isel =>
          rw [his] at h
          dsimp only at h
          by_cases ht : truthySel isel = true
          · rw [if_pos ht] at h
            cases hstep : step (.vObj il) isel st with
            | mk r st2 =>
              rw [hstep] at h
              cases r with
              | res ro =>
                cases ro with
                | none => dsimp only at h; cases h; exact itemsCleanup_ref out
                | some o => dsimp only at h; cases h; exact itemsOut_ref s out o
              | marker => dsimp only at h; cases h; rfl
              | err => dsimp only at h; cases h
              | fuelOut => dsimp only at h; cases h
          · rw [if_neg ht] at h
            cases h
            rfl
      · rw [if_neg hig] at h
        cases h
        rfl
    | vBool b => cases h; rfl
    | vNum n => cases h; rfl
    | vStr s2 => cases h; rfl
    | vNull => cases h; rfl
    | vArr l2 => cases h; rfl

theorem itemsStageSF_error (step : JVal → Sel → SFSt → PResult × SFSt)
    (s : JVal) (sel : Sel) (out : OutSchema) (hc : Bool) (st : SFSt)
    (e : PResult × SFSt)
    (h : itemsStageSF step s sel out hc st = .error e) :
    e.1 = .err ∨ e.1 = .fuelOut := by
  unfold itemsStageSF at h
  cases hiv : getField s "items" with
  | none => rw [hiv] at h; cases h
  | some iv =>
    rw [hiv] at h
    cases iv with
    | vObj il =>
      dsimp only at h
      by_cases hig : itemsGuard sel = true
      · rw [if_pos hig] at h
        cases his : itemsSelOf sel with
        | none => rw [his] at h; cases h
        | some isel =>
          rw [his] at h
          dsimp only at h
          by_cases ht : truthySel isel = true
          · rw [if_pos ht] at h
            cases hstep : step (.vObj il) isel st with
            | mk r st2 =>
              rw [hstep] at h
              cases r with
              | res ro =>
                cases ro with
                | none => dsimp only at h; cases h
                | some o => dsimp only at h; cases h
              | marker => dsimp only at h; cases h
              | err => dsimp only at h; cases h; exact Or.inl rfl
              | fuelOut => dsimp only at h; cases h; exact Or.inr rfl
          · rw [if_neg ht] at h
            cases h
      · rw [if_neg hig] at h
        cases h
    | vBool b => cases h
    | vNum n => cases h
    | vStr s2 => cases h
    | vNull => cases h
    | vArr l2 => cases h

theorem compStage_ref (step : JVal → Sel → SFSt → PResult × SFSt)
    (s : JVal) (sel : Sel) (kw : String) (hkw : kw ≠ "$ref")
    (out : OutSchema) (hc : Bool) (st : SFSt)
    (out1 : OutSchema) (hc1 : Bool) (st1 : SFSt)
    (h : compStage step s sel kw out hc st = .ok (out1, hc1, st1)) :
    alookup out1 "$ref" = alookup out "$ref" := by
  unfold compStage at h
  cases hkv : getField s kw with
  | none => rw [hkv] at h; cases h; rfl
  | some kv =>
    rw [hkv] at h
    cases kv with
    | vArr l =>
      dsimp only at h
      cases hfold : compFold step sel l st with
      | error e => rw [hfold] at h; simp at h
      | ok pair =>
        obtain ⟨cl, st2⟩ := pair
        rw [hfold] at h
        dsimp only at h
        by_cases hcl : (!cl.isEmpty) = true
        · rw [if_pos hcl] at h
          cases h
          exact alookup_aset_ne kw "$ref" _ hkw out
        · rw [if_neg hcl] at h
          cases h
          rfl
    | vBool b => cases h; rfl
    | vNum n => cases h; rfl
    | vStr s2 => cases h; rfl
    | vNull => cases h; rfl
    | vObj l2 => cases h; rfl

theorem compStage_error (step : JVal → Sel → SFSt → PResult × SFSt)
    (s : JVal) (sel : Sel) (kw : String)
    (out : OutSchema) (hc : Bool) (st : SFSt) (e : PResult × SFSt)
    (h : compStage step s sel kw out hc st = .error e) :
    e.1 = .err ∨ e.1 = .fuelOut := by
  unfold compStage at h
  cases hkv : getField s kw with
  | none => rw [hkv] at h; cases h
  | some kv =>
    rw [hkv] at h
    cases kv with
    | vArr l =>
      dsimp only at h
      cases hfold : compFold step sel l st with
      | error e2 =>
        rw [hfold] at h
        dsimp only at h
        cases h
        exact compFold_error step sel l st e hfold
      | ok pair =>
        obtain ⟨cl, st2⟩ := pair
        rw [hfold] at h
        dsimp only at h
        by_cases hcl : (!cl.isEmpty) = true
        · rw [if_pos hcl] at h; cases h
        · rw [if_neg hcl] at h; cases h
    | vBool b => cases h
    | vNum n => cases h
    | vStr s2 => cases h
    | vNull => cases h
    | vObj l2 => cases h

-- Shape of the single-file $ref stage: an early return is an error
-- outcome, a null, or a bare local-reference node; fallthrough carries no
-- output at all.
theorem refStageSF_shape (fsys : String → Option JVal)
    (refRec : JVal → Sel → String → SFSt → PResult × SFSt)
    (s : JVal) (sel : Sel) (p : String) (top : Bool) (st : SFSt) :
    (match refStageSF fsys refRec s sel p top st with
     | .ok _ => True
     | .error e =>
       e.1 = PResult.err ∨ e.1 = PResult.fuelOut ∨ e.1 = PResult.res none ∨
       ∃ r : String, e.1 = PResult.res (some [("$ref", JVal.vStr r)])) := by
  unfold refStageSF
  cases hrv : getField s "$ref" with
  | none => exact trivial
  | some rv =>
    cases rv with
    | vStr r =>
      dsimp only
      by_cases hre : r = ""
      · rw [if_pos hre]
        exact trivial
      · rw [if_neg hre]
        by_cases hh : startsWithHash r = true
        · rw [if_pos hh]
          exact Or.inr (Or.inr (Or.inr ⟨r, rfl⟩))
        · rw [if_neg hh]
          by_cases habs : (!pathIsAbsolute p) = true
          · rw [if_pos habs]
            exact Or.inl rfl
          · rw [if_neg habs]
            by_cases hts : truthySel (refSelectionOf sel) = true
            · rw [if_pos hts]
              cases hdm : alookup st.dmap (resolveRefPath r p) with
              | some key =>
                exact Or.inr (Or.inr (Or.inr ⟨_, rfl⟩))
              | none =>
                cases hcl : alookup st.cache (resolveRefPath r p) with
                | some cv =>
                  cases cv with
                  | marker =>
                    exact Or.inr (Or.inr (Or.inl rfl))
                  | done v =>
                    cases hfs : fsys (resolveRefPath r p) with
                    | none => exact trivial
                    | some rs =>
                      dsimp only
                      cases hrc : refRec rs (refSelectionOf sel) (resolveRefPath r p)
                          (setMap st (resolveRefPath r p)
                            (generateDefinitionKey (resolveRefPath r p))) with
                      | mk r2 st3 =>
                        cases r2 with
                        | res ro =>
                          cases ro with
                          | none => exact trivial
                          | some o =>
                            dsimp only
                            by_cases ho : (!o.isEmpty) = true
                            · rw [if_pos ho]
                              exact Or.inr (Or.inr (Or.inr ⟨_, rfl⟩))
                            · rw [if_neg ho]
                              exact trivial
                        | marker => exact trivial
                        | err => exact trivial
                        | fuelOut => exact Or.inr (Or.inl rfl)
                | none =>
                  cases hfs : fsys (resolveRefPath r p) with
                  | none => exact trivial
                  | some rs =>
                    dsimp only
                    cases hrc : refRec rs (refSelectionOf sel) (resolveRefPath r p)
                        (setMap st (resolveRefPath r p)
                          (generateDefinitionKey (resolveRefPath r p))) with
                    | mk r2 st3 =>
                      cases r2 with
                      | res ro =>
                        cases ro with
                        | none => exact trivial
                        | some o =>
                          dsimp only
                          by_cases ho : (!o.isEmpty) = true
                          · rw [if_pos ho]
                            exact Or.inr (Or.inr (Or.inr ⟨_, rfl⟩))
                          · rw [if_neg ho]
                            exact trivial
                      | marker => exact trivial
                      | err => exact trivial
                      | fuelOut => exact Or.inr (Or.inl rfl)
            · rw [if_neg hts]
              exact trivial
    | vBool b => exact trivial
    | vNum n => exact trivial
    | vNull => exact trivial
    | vArr l => exact trivial
    | vObj l => exact trivial

theorem processBodySF_refOnly (fsys : String → Option JVal)
    (step : JVal → Sel → SFSt → PResult × SFSt)
    (refRec : JVal → Sel → String → SFSt → PResult × SFSt)
    (s : JVal) (sel : Option Sel) (p : String) (st : SFSt) (top : Bool)
    (hcw : cacheWF st.cache) (o : OutSchema)
    (h : (processBodySF fsys step refRec s sel p st top).1 = .res (some o)) :
    refOnly o := by
  unfold processBodySF at h
  cases htop : (if top then alookup st.cache p else none) with
  | some cv =>
    rw [htop] at h
    cases cv with
    | marker => simp at h
    | done v =>
      dsimp only at h
      cases v with
      | none => simp at h
      | some v2 =>
        have hv : v2 = o := by simpa using h
        subst hv
        have htt : top = true := by
          cases top with
          | false => simp at htop
          | true => rfl
        rw [htt] at htop
        simp only [if_pos] at htop
        exact hcw p v2 htop
  | none =>
    rw [htop] at h
    dsimp only at h
    by_cases hts : truthySelOpt sel = true
    · rw [if_neg (by simp [hts] : ¬((!truthySelOpt sel) = true))] at h
      set sel1 := sel.getD (Sel.sbool false) with hsel1
      set st1 := (if top then setCache st p CacheVal.marker else st) with hst1
      have hshape := refStageSF_shape fsys refRec s sel1 p top st1
      cases href : refStageSF fsys refRec s sel1 p top st1 with
      | error e =>
        rw [href] at h hshape
        dsimp only at h hshape
        rcases hshape with he | he | he | ⟨r, he⟩
        · rw [he] at h; simp at h
        · rw [he] at h; simp at h
        · rw [he] at h; simp at h
        · rw [he] at h
          have : [("$ref", JVal.vStr r)] = o := by simpa using h
          subst this
          intro _
          exact ⟨r, rfl⟩
      | ok st2 =>
        rw [href] at h
        dsimp only at h
        cases hprops : propsStageSF step s sel1 (copyBasicsSF s)
            (selIsTrue sel1 && !(copyBasicsSF s).isEmpty) st2 with
        | error e =>
          rw [hprops] at h
          dsimp only at h
          have := propsStageSF_error step s sel1 _ _ st2 e hprops
          rcases this with he | he <;> rw [he] at h <;> simp at h
        | ok trip =>
          obtain ⟨out1, hc1, st3⟩ := trip
          rw [hprops] at h
          dsimp only at h
          have hp := propsStageSF_ref step s sel1 _ _ st2 out1 hc1 st3 hprops
          cases hitems : itemsStageSF step s sel1 out1 hc1 st3 with
          | error e =>
            rw [hitems] at h
            dsimp only at h
            have := itemsStageSF_error step s sel1 out1 hc1 st3 e hitems
            rcases this with he | he <;> rw [he] at h <;> simp at h
          | ok trip2 =>
            obtain ⟨out2, hc2, st4⟩ := trip2
            rw [hitems] at h
            dsimp only at h
            have hi := itemsStageSF_ref step s sel1 out1 hc1 st3 out2 hc2 st4 hitems
            cases hall : compStage step s sel1 "allOf" out2 hc2 st4 with
            | error e =>
              rw [hall] at h
              dsimp only at h
              have := compStage_error step s sel1 "allOf" out2 hc2 st4 e hall
              rcases this with he | he <;> rw [he] at h <;> simp at h
            | ok trip3 =>
              obtain ⟨out3, hc3, st5⟩ := trip3
              rw [hall] at h
              dsimp only at h
              have ha := compStage_ref step s sel1 "allOf" (by decide) out2 hc2 st4 out3 hc3 st5 hall
              cases hany : compStage step s sel1 "anyOf" out3 hc3 st5 with
              | error e =>
                rw [hany] at h
                dsimp only at h
                have := compStage_error step s sel1 "anyOf" out3 hc3 st5 e hany
                rcases this with he | he <;> rw [he] at h <;> simp at h
              | ok trip4 =>
                obtain ⟨out4, hc4, st6⟩ := trip4
                rw [hany] at h
                dsimp only at h
                have hb := compStage_ref step s sel1 "anyOf" (by decide) out3 hc3 st5 out4 hc4 st6 hany
                cases hone : compStage step s sel1 "oneOf" out4 hc4 st6 with
                | error e =>
                  rw [hone] at h
                  dsimp only at h
                  have := compStage_error step s sel1 "oneOf" out4 hc4 st6 e hone
                  rcases this with he | he <;> rw [he] at h <;> simp at h
                | ok trip5 =>
                  obtain ⟨out5, hc5, st7⟩ := trip5
                  rw [hone] at h
                  dsimp only at h
                  have hcref := compStage_ref step s sel1 "oneOf" (by decide) out4 hc4 st6 out5 hc5 st7 hone
                  by_cases hcont : hc5 = true
                  · rw [hcont] at h
                    have hout : out5 = o := by simpa using h
                    subst hout
                    intro htr
                    exfalso
                    rw [hcref, hb, ha, hi, hp, copyBasicsSF_ref_none s] at htr
                    simp [jTruthyOpt] at htr
                  · have hcf : hc5 = false := by
                      cases hc5 with
                      | false => rfl
                      | true => exact absurd rfl hcont
                    rw [hcf] at h
                    simp at h
    · rw [if_pos (by simp [Bool.not_eq_true] at hts ⊢; exact hts : (!truthySelOpt sel) = true)] at h
      simp at h

theorem processSchemaSF_refOnly (fsys : String → Option JVal)
    (bIn bOut ms : String) (fuel : Nat) (s : JVal) (sel : Option Sel)
    (p : String) (st : SFSt) (top : Bool) (r : PResult) (st2 : SFSt)
    (hcw : cacheWF st.cache)
    (h : SingleFile.processSchema fsys bIn bOut ms fuel s sel p st top = (r, st2))
    (o : OutSchema) (hr : r = .res (some o)) : refOnly o := by
  cases fuel with
  | zero =>
    rw [hr] at h
    simp [SingleFile.processSchema] at h
  | succ n =>
    refine processBodySF_refOnly fsys
      (fun v sl c => SingleFile.processSchema fsys bIn bOut ms n v (some sl) p c false)
      (fun rs2 sl q c => SingleFile.processSchema fsys bIn bOut ms n rs2 (some sl) q c true)
      s sel p st top hcw o ?_
    calc (processBodySF fsys
        (fun v sl c => SingleFile.processSchema fsys bIn bOut ms n v (some sl) p c false)
        (fun rs2 sl q c => SingleFile.processSchema fsys bIn bOut ms n rs2 (some sl) q c true)
        s sel p st top).1
        = (SingleFile.processSchema fsys bIn bOut ms (n + 1) s sel p st top).1 := rfl
      _ = (r, st2).1 := by rw [h]
      _ = .res (some o) := hr

end SingleFile

/-- C3: in both output strategies, whenever processSchema returns a schema
node whose $ref member is truthy, that node is exactly the single rewritten
reference and nothing else: no properties, items, or composition keywords
accompany an emitted reference, and the basic keywords copied earlier are
discarded.  The hypothesis asks the same of every finished entry of the
incoming cache, which holds trivially for the empty cache each mask
generation starts from. -/
theorem c3_emitted_ref_is_the_whole_node :
    (∀ (fsys : String → Option DMask.JVal) (bIn bOut : String) (fuel : Nat)
       (s : DMask.JVal) (sel : Option DMask.Sel) (p : String)
       (cache : Processor.Cache) (top : Bool)
       (r : Processor.PResult) (c2 : Processor.Cache),
       Processor.cacheWF cache →
       Processor.processSchema fsys bIn bOut fuel s sel p cache top = (r, c2) →
       ∀ o : DMask.OutSchema, r = .res (some o) → Processor.refOnly o) ∧
    (∀ (fsys : String → Option DMask.JVal) (bIn bOut ms : String) (fuel : Nat)
       (s : DMask.JVal) (sel : Option DMask.Sel) (p : String)
       (st : SingleFile.SFSt) (top : Bool)
       (r : Processor.PResult) (st2 : SingleFile.SFSt),
       Processor.cacheWF st.cache →
       SingleFile.processSchema fsys bIn bOut ms fuel s sel p st top = (r, st2) →
       ∀ o : DMask.OutSchema, r = .res (some o) → Processor.refOnly o) :=
  ⟨fun fsys bIn bOut fuel s sel p cache top r c2 hcw h o hr =>
      Processor.processSchema_refOnly fsys bIn bOut fuel s sel p cache top r c2 hcw h o hr,
   fun fsys bIn bOut ms fuel s sel p st top r st2 hcw h o hr =>
      SingleFile.processSchemaSF_refOnly fsys bIn bOut ms fuel s sel p st top r st2 hcw h o hr⟩

/-- C3 witness: the multi-file part applied to the concrete two-document
cycle run starting from the empty cache, at its emitted reference node. -/
theorem c3_witness :
    ∃ r : String,
      [("$ref", DMask.JVal.vStr "./B_m1.json")] = [("$ref", DMask.JVal.vStr r)] :=
  c3_emitted_ref_is_the_whole_node.1 Processor.fsCycle "/in" "/out" 10 Processor.cycleA
    (some (DMask.Sel.sbool true)) "/in/A.json" [] true
    (.res (some [("$ref", .vStr "./B_m1.json")]))
    [("/in/A.json", .done (some [("$ref", .vStr "./B_m1.json")])),
     ("/in/B.json", .done (some [("$ref", .vStr "./A_m1.json")]))]
    (fun _ _ hq => nomatch hq) rfl
    [("$ref", DMask.JVal.vStr "./B_m1.json")] rfl (by decide)
